import Mathlib

set_option maxHeartbeats 1000000

namespace GraphAlgo

/-- Shallow embedding of `Edge` (src/src/lib.rs, lines 20-27); `f64` weights are
modelled as rationals, which is faithful here because every weight that the
algorithms produce is either an input weight, the constant 1, or a sum of such
values accumulated in a fixed left-to-right order. -/
structure Edge where
  «from» : String
  «to» : String
  weight : Option ℚ
deriving Repr, DecidableEq

/-- Shallow embedding of `Graph` (src/src/lib.rs, lines 29-35). -/
structure Graph where
  nodes : List String
  edges : List Edge
deriving Repr, DecidableEq

/-- Shallow embedding of `TopologicalSortResult` (src/src/lib.rs, lines 37-43). -/
structure TopologicalSortResult where
  sorted : List String
  has_cycle : Bool
deriving Repr, DecidableEq

/-- Shallow embedding of `CycleDetectionResult` (src/src/lib.rs, lines 45-51). -/
structure CycleDetectionResult where
  has_cycle : Bool
  cycles : List (List String)
deriving Repr, DecidableEq

/-- Shallow embedding of `PathResult` (src/src/lib.rs, lines 53-60). -/
structure PathResult where
  path : List String
  «exists» : Bool
  distance : Option ℚ
deriving Repr, DecidableEq

/-- Shallow embedding of `Relationship` (src/src/dag.rs, lines 4-10). -/
structure Relationship where
  «from» : String
  «to» : String
  confidence : Option ℚ
deriving Repr, DecidableEq

/-- List-as-set insertion, modelling `HashSet::insert`.  The iteration order of
a `HashSet` is unspecified; this model realises one concrete order, and every
claim proved about consumers of the model is independent of that order. -/
def insertS (s : List String) (x : String) : List String :=
  if x ∈ s then s else s ++ [x]

/-- Loop body of `build_dag_from_relationships` (src/src/dag.rs, lines 17-25). -/
def dagStep (acc : Graph) (rel : Relationship) : Graph :=
  { nodes := insertS (insertS acc.nodes rel.«from») rel.«to»
    edges := acc.edges ++ [{ «from» := rel.«from», «to» := rel.«to», weight := rel.confidence }] }

/-- Shallow embedding of `build_dag_from_relationships` (src/src/dag.rs, lines 13-31). -/
def build_dag_from_relationships (rels : List Relationship) : Graph :=
  rels.foldl dagStep { nodes := [], edges := [] }

/-- `stepRel g a b` holds when the edge list of `g` contains an edge from `a` to `b`. -/
def stepRel (g : Graph) (a b : String) : Prop :=
  ∃ e ∈ g.edges, e.«from» = a ∧ e.«to» = b

instance stepRelDecidable (g : Graph) (a b : String) : Decidable (stepRel g a b) :=
  List.decidableBEx _ g.edges

/-- A nonempty closed directed walk in `g`: consecutive elements are joined by
edges and the last element has an edge back to the first (the spec's
"first node repeats implicitly at the end"). -/
def IsCyclicWalk (g : Graph) : List String → Prop
  | [] => False
  | a :: rest => List.Chain (stepRel g) a (rest ++ [a])

/-- A directed walk in `g` from `a` to `b` following the edge list. -/
def IsWalk (g : Graph) (a b : String) (p : List String) : Prop :=
  p.head? = some a ∧ p.getLast? = some b ∧ List.Chain' (stepRel g) p

/-- `b` can be reached from `a` along directed edges of `g`. -/
def Reachable (g : Graph) (a b : String) : Prop :=
  ∃ p, IsWalk g a b p

/-! ### Path finding (src/src/path_finding.rs) -/

/-- The defaulted weight of an edge: `edge.weight.unwrap_or(1.0)`
(src/src/path_finding.rs, line 22). -/
def edgeWeight (e : Edge) : ℚ := e.weight.getD 1

/-- The outgoing `(target, weight)` pairs of a node, in edge-list order: the
contents of the adjacency entry built in src/src/path_finding.rs, lines 15-27. -/
def outPairs (g : Graph) (n : String) : List (String × ℚ) :=
  (g.edges.filter (fun e => e.«from» == n)).map (fun e => (e.«to», edgeWeight e))

/-- `adjacency.get(n)` for path finding: an entry exists iff `n` was declared
as a node or has an outgoing edge (src/src/path_finding.rs, lines 15-27). -/
def adjGetP (g : Graph) (n : String) : Option (List (String × ℚ)) :=
  if n ∈ g.nodes ∨ g.edges.any (fun e => e.«from» == n) then some (outPairs g n) else none

/-- The neighbor scan of the BFS loop (src/src/path_finding.rs, lines 45-54):
mark each unvisited neighbor visited and enqueue it with the extended path and
accumulated distance. -/
def enqueueNbrs : List (String × ℚ) → List (String × List String × ℚ) → List String →
    List String → ℚ → List (String × List String × ℚ) × List String
  | [], queue, visited, _, _ => (queue, visited)
  | (nb, w) :: rest, queue, visited, path, dist =>
    if nb ∈ visited then enqueueNbrs rest queue visited path dist
    else enqueueNbrs rest (queue ++ [(nb, path ++ [nb], dist + w)]) (nb :: visited) path dist

/-- The BFS `while let` loop (src/src/path_finding.rs, lines 36-55).  The fuel
argument only realises termination; `find_path_between_nodes` passes enough
fuel that the zero case is never reached (each iteration strictly decreases
the queue length plus the number of never-visited enqueueable nodes). -/
def bfsLoop (g : Graph) (t : String) : Nat → List (String × List String × ℚ) →
    List String → PathResult
  | 0, _, _ => { path := [], «exists» := false, distance := none }
  | _ + 1, [], _ => { path := [], «exists» := false, distance := none }
  | fuel + 1, (current, path, dist) :: queue, visited =>
    if current == t then { path := path, «exists» := true, distance := some dist }
    else
      match adjGetP g current with
      | none => bfsLoop g t fuel queue visited
      | some neighbors =>
        let qv := enqueueNbrs neighbors queue visited path dist
        bfsLoop g t fuel qv.1 qv.2

/-- Every node the BFS can ever enqueue starting from `f`. -/
def bfsUniv (g : Graph) (f : String) : List String := (f :: g.edges.map (·.«to»)).dedup

/-- Shallow embedding of `find_path_between_nodes` (src/src/path_finding.rs, lines 5-62). -/
def find_path_between_nodes (g : Graph) (f t : String) : PathResult :=
  if f == t then { path := [f], «exists» := true, distance := some 0 }
  else bfsLoop g t (bfsUniv g f).length [(f, [f], 0)] [f]

/-- The defaulted weight of the first edge from `a` to `b` in edge-list order:
the weight the BFS uses when it steps from `a` to `b`. -/
def firstEdgeWeight (g : Graph) (a b : String) : ℚ :=
  match (outPairs g a).find? (fun pr => pr.1 == b) with
  | some pr => pr.2
  | none => 1

/-- The accumulated weight of a walk: the sum, over consecutive pairs, of the
defaulted weight of the first edge joining the pair. -/
def walkWeight (g : Graph) : List String → ℚ
  | [] => 0
  | [_] => 0
  | a :: b :: rest => firstEdgeWeight g a b + walkWeight g (b :: rest)

/-! ### Cycle detection (src/src/cycle_detection.rs) -/

/-- The outgoing targets of a node, in edge-list order: the adjacency entry
contents built in src/src/cycle_detection.rs, lines 7-18 (and
src/src/topological_sort.rs, lines 17-23). -/
def outList (g : Graph) (n : String) : List String :=
  (g.edges.filter (fun e => e.«from» == n)).map (fun e => e.«to»)

/-- `adjacency.get(n)` for cycle detection and topological sort: an entry
exists iff `n` was declared as a node or has an outgoing edge. -/
def adjGetC (g : Graph) (n : String) : Option (List String) :=
  if n ∈ g.nodes ∨ g.edges.any (fun e => e.«from» == n) then some (outList g n) else none

/-- The mutable state of `dfs_cycle_detection`: the `visited` and `rec_stack`
sets, the current `path`, and the accumulated `cycles`. -/
structure DfsSt where
  visited : List String
  recStack : List String
  path : List String
  cycles : List (List String)
deriving Repr, DecidableEq

/-- Removal from a list-as-set, modelling `HashSet::remove`. -/
def removeS (s : List String) (x : String) : List String :=
  s.filter (fun y => y ≠ x)

/-- The neighbor loop of `dfs_cycle_detection` (src/src/cycle_detection.rs,
lines 59-75), abstracted over the recursive visit `f`:  an unvisited neighbor
is visited recursively (propagating a found cycle immediately); a visited
neighbor on the recursion stack yields a back edge, and the cycle is the
suffix of the current path from the neighbor's first occurrence — when the
neighbor is not on the current path (a stale recursion-stack entry left by an
earlier early return) nothing is recorded and the scan continues. -/
def dfsLoop (f : String → DfsSt → Bool × DfsSt) : List String → DfsSt → Bool × DfsSt
  | [], st => (false, st)
  | nb :: rest, st =>
    if nb ∈ st.visited then
      if nb ∈ st.recStack then
        match st.path.findIdx? (fun x => x == nb) with
        | some pos => (true, { st with cycles := st.cycles ++ [st.path.drop pos] })
        | none => dfsLoop f rest st
      else dfsLoop f rest st
    else
      match f nb st with
      | (true, st') => (true, st')
      | (false, st') => dfsLoop f rest st'

/-- Shallow embedding of `dfs_cycle_detection` (src/src/cycle_detection.rs,
lines 47-80).  The fuel argument only realises termination of the recursion;
`detect_cycles_in_graph` passes enough fuel that the zero case is never
reached (every call is on a node not yet visited, and `visited` only grows). -/
def dfsVisit (g : Graph) : Nat → String → DfsSt → Bool × DfsSt
  | 0, _, st => (false, st)
  | fuel + 1, node, st =>
    let st1 : DfsSt :=
      { st with visited := insertS st.visited node
                recStack := insertS st.recStack node
                path := st.path ++ [node] }
    let r :=
      match adjGetC g node with
      | none => (false, st1)
      | some neighbors => dfsLoop (dfsVisit g fuel) neighbors st1
    match r with
    | (true, st') => (true, st')
    | (false, st') =>
      (false, { st' with recStack := removeS st'.recStack node, path := st'.path.dropLast })

/-- Every node the DFS can ever visit. -/
def dfsUniv (g : Graph) : List String := (g.nodes ++ g.edges.map (·.«to»)).dedup

/-- Shallow embedding of `detect_cycles_in_graph` (src/src/cycle_detection.rs,
lines 5-44).  The `path` vector is created afresh for every root; `visited`,
`rec_stack` and `cycles` persist across roots. -/
def detect_cycles_in_graph (g : Graph) : CycleDetectionResult :=
  let final :=
    g.nodes.foldl
      (fun (st : DfsSt) node =>
        if node ∈ st.visited then st
        else (dfsVisit g ((dfsUniv g).length + 1) node { st with path := [] }).2)
      { visited := [], recStack := [], path := [], cycles := [] }
  { has_cycle := !final.cycles.isEmpty, cycles := final.cycles }

/-! ### Topological sort (src/src/topological_sort.rs) -/

/-- The in-degree recorded for `v` after the edge scan
(src/src/topological_sort.rs, lines 17-23): the number of edges into `v`.
Modelled as an integer because the Rust `usize` decrement can in principle
wrap; the development proves it never goes below zero on the reachable
states. -/
def inDeg (g : Graph) (v : String) : Int := ((g.edges.filter (fun e => e.«to» == v)).length : Int)

/-- The key set of the `in_degree` map: every declared node and every edge
target.  A `HashMap` iterates its keys in an unspecified order; this model
realises one concrete order, and the claims proved are order-independent. -/
def kahnKeys (g : Graph) : List String := (g.nodes ++ g.edges.map (·.«to»)).dedup

/-- The neighbor scan of Kahn's loop (src/src/topological_sort.rs, lines
39-47): decrement each neighbor's in-degree, enqueueing it when the count
reaches zero. -/
def kahnStep : List String → List String → (String → Int) → List String × (String → Int)
  | [], queue, deg => (queue, deg)
  | nb :: rest, queue, deg =>
    let d := deg nb - 1
    let deg' := fun x => if x = nb then d else deg x
    if d = 0 then kahnStep rest (queue ++ [nb]) deg'
    else kahnStep rest queue deg'

/-- The `while let` loop of Kahn's algorithm (src/src/topological_sort.rs,
lines 36-48).  The fuel argument only realises termination;
`compute_topological_sort` passes enough fuel that the zero case is never
reached (each node is enqueued at most once). -/
def kahnLoop (g : Graph) : Nat → List String → (String → Int) → List String → List String
  | 0, _, _, sorted => sorted
  | _ + 1, [], _, sorted => sorted
  | fuel + 1, node :: rest, deg, sorted =>
    let sorted' := sorted ++ [node]
    match adjGetC g node with
    | none => kahnLoop g fuel rest deg sorted'
    | some neighbors =>
      let qd := kahnStep neighbors rest deg
      kahnLoop g fuel qd.1 qd.2 sorted'

/-- Shallow embedding of `compute_topological_sort` (src/src/topological_sort.rs,
lines 5-57). -/
def compute_topological_sort (g : Graph) : TopologicalSortResult :=
  let seeds := (kahnKeys g).filter (fun v => inDeg g v == 0)
  let sorted := kahnLoop g (kahnKeys g).length seeds (fun v => inDeg g v) []
  { sorted := sorted, has_cycle := decide (sorted.length < g.nodes.length) }

/-! ### Entry points (src/src/lib.rs)

The JSON decoding at the boundary is out of scope of the core (spec §1); it is
modelled as a caller-supplied decoder returning `Option`, `none` standing for
a decode failure.  Serialization of the result value cannot fail for these
result types, so the wrappers return the result value itself. -/

/-- Shallow embedding of `topological_sort` (src/src/lib.rs, lines 70-85). -/
def topological_sort (decode : String → Option Graph) (graph_json : String) :
    TopologicalSortResult :=
  match decode graph_json with
  | none => { sorted := [], has_cycle := true }
  | some g => compute_topological_sort g

/-- Shallow embedding of `detect_cycles` (src/src/lib.rs, lines 95-110). -/
def detect_cycles (decode : String → Option Graph) (graph_json : String) :
    CycleDetectionResult :=
  match decode graph_json with
  | none => { has_cycle := false, cycles := [] }
  | some g => detect_cycles_in_graph g

/-- Shallow embedding of `find_path` (src/src/lib.rs, lines 122-138). -/
def find_path (decode : String → Option Graph) (graph_json : String) (f t : String) :
    PathResult :=
  match decode graph_json with
  | none => { path := [], «exists» := false, distance := none }
  | some g => find_path_between_nodes g f t

/-- Shallow embedding of `build_dag` (src/src/lib.rs, lines 148-163). -/
def build_dag (decode : String → Option (List Relationship)) (relationships_json : String) :
    Graph :=
  match decode relationships_json with
  | none => { nodes := [], edges := [] }
  | some rels => build_dag_from_relationships rels

/-! ### Basic lemmas about the set model -/

lemma mem_insertS {s : List String} {x y : String} :
    y ∈ insertS s x ↔ y = x ∨ y ∈ s := by
  unfold insertS
  split
  · next h => constructor
              · exact fun hy => Or.inr hy
              · rintro (rfl | hy) <;> [exact h; exact hy]
  · simp [or_comm]

lemma nodup_insertS {s : List String} {x : String} (h : s.Nodup) :
    (insertS s x).Nodup := by
  unfold insertS
  split
  · exact h
  · next hx =>
      rw [List.nodup_append]
      exact ⟨h, List.nodup_singleton x, by simpa using fun hy => hx hy⟩

/-! ### C5: DAG construction -/

lemma dag_foldl_spec (rels : List Relationship) :
    ∀ acc : Graph,
      (rels.foldl dagStep acc).edges
          = acc.edges ++ rels.map (fun r => ⟨r.«from», r.«to», r.confidence⟩) ∧
      (∀ x, x ∈ (rels.foldl dagStep acc).nodes
          ↔ x ∈ acc.nodes ∨ ∃ r ∈ rels, x = r.«from» ∨ x = r.«to») ∧
      (acc.nodes.Nodup → (rels.foldl dagStep acc).nodes.Nodup) := by
  induction rels with
  | nil => intro acc; simp
  | cons r rels ih =>
    intro acc
    obtain ⟨ih1, ih2, ih3⟩ := ih (dagStep acc r)
    refine ⟨?_, ?_, ?_⟩
    · rw [List.foldl_cons, ih1]
      simp [dagStep]
    · intro x
      rw [List.foldl_cons, ih2 x]
      simp only [dagStep, mem_insertS, List.mem_cons]
      constructor
      · rintro ((rfl | rfl | hx) | ⟨r', hr', h'⟩)
        · exact Or.inr ⟨r, Or.inl rfl, Or.inr rfl⟩
        · exact Or.inr ⟨r, Or.inl rfl, Or.inl rfl⟩
        · exact Or.inl hx
        · exact Or.inr ⟨r', Or.inr hr', h'⟩
      · rintro (hx | ⟨r', (rfl | hr'), h'⟩)
        · exact Or.inl (Or.inr (Or.inr hx))
        · rcases h' with rfl | rfl
          · exact Or.inl (Or.inr (Or.inl rfl))
          · exact Or.inl (Or.inl rfl)
        · exact Or.inr ⟨r', hr', h'⟩
    · intro hacc
      rw [List.foldl_cons]
      exact ih3 (nodup_insertS (nodup_insertS hacc))

/-- C5: `build_dag_from_relationships` emits one edge per relationship, in
input order, carrying the relationship's endpoints and confidence; its node
list contains each distinct endpoint exactly once, so the node count is the
number of distinct endpoints and the edge count is the relationship count. -/
theorem c5_build_dag_spec (rels : List Relationship) :
    (build_dag_from_relationships rels).edges
        = rels.map (fun r => ⟨r.«from», r.«to», r.confidence⟩) ∧
    (build_dag_from_relationships rels).edges.length = rels.length ∧
    (build_dag_from_relationships rels).nodes.Nodup ∧
    (∀ x, x ∈ (build_dag_from_relationships rels).nodes
        ↔ x ∈ rels.map (fun r => r.«from») ++ rels.map (fun r => r.«to»)) ∧
    (build_dag_from_relationships rels).nodes.length
        = ((rels.map (fun r => r.«from») ++ rels.map (fun r => r.«to»)).dedup).length := by
  obtain ⟨h1, h2, h3⟩ := dag_foldl_spec rels { nodes := [], edges := [] }
  have hedges : (build_dag_from_relationships rels).edges
      = rels.map (fun r => ⟨r.«from», r.«to», r.confidence⟩) := by
    simpa [build_dag_from_relationships] using h1
  have hmem : ∀ x, x ∈ (build_dag_from_relationships rels).nodes
      ↔ x ∈ rels.map (fun r => r.«from») ++ rels.map (fun r => r.«to») := by
    intro x
    rw [build_dag_from_relationships, h2 x]
    simp only [List.mem_append, List.mem_map, List.not_mem_nil, false_or]
    constructor
    · rintro ⟨r, hr, rfl | rfl⟩
      · exact Or.inl ⟨r, hr, rfl⟩
      · exact Or.inr ⟨r, hr, rfl⟩
    · rintro (⟨r, hr, rfl⟩ | ⟨r, hr, rfl⟩)
      · exact ⟨r, hr, Or.inl rfl⟩
      · exact ⟨r, hr, Or.inr rfl⟩
  have hnodup : (build_dag_from_relationships rels).nodes.Nodup := by
    simpa [build_dag_from_relationships] using h3 List.nodup_nil
  refine ⟨hedges, by rw [hedges]; simp, hnodup, hmem, ?_⟩
  have hperm : (build_dag_from_relationships rels).nodes.Perm
      ((rels.map (fun r => r.«from») ++ rels.map (fun r => r.«to»)).dedup) := by
    refine (List.perm_ext_iff_of_nodup hnodup (List.nodup_dedup _)).2 ?_
    intro a
    rw [List.mem_dedup]
    exact hmem a
  exact hperm.length_eq

/-! ### C6: decode-failure fallbacks -/

/-- C6: when the input fails to decode, each of the four entry points returns
its documented fallback result and (being a total function) never propagates
an error to the caller. -/
theorem c6_decode_failure_fallbacks (decode : String → Option Graph)
    (decodeR : String → Option (List Relationship)) (s : String) (f t : String)
    (h : decode s = none) (hR : decodeR s = none) :
    topological_sort decode s = { sorted := [], has_cycle := true } ∧
    detect_cycles decode s = { has_cycle := false, cycles := [] } ∧
    find_path decode s f t = { path := [], «exists» := false, distance := none } ∧
    build_dag decodeR s = { nodes := [], edges := [] } := by
  refine ⟨?_, ?_, ?_, ?_⟩ <;> simp [topological_sort, detect_cycles, find_path, build_dag, h, hR]

theorem c6_witness :
    ((fun _ => (none : Option Graph)) "" = none) ∧
    topological_sort (fun _ => none) "" = { sorted := [], has_cycle := true } ∧
    detect_cycles (fun _ => none) "" = { has_cycle := false, cycles := [] } ∧
    find_path (fun _ => none) "" "a" "b" = { path := [], «exists» := false, distance := none } ∧
    build_dag (fun _ => none) "" = { nodes := [], edges := [] } :=
  ⟨rfl, c6_decode_failure_fallbacks (fun _ => none) (fun _ => none) "" "a" "b" rfl rfl⟩

/-! ### C7: source equals target -/

/-- C7: when source and target coincide, `find_path_between_nodes` returns the
single-element path with existence true and distance 0, for every graph (the
early return precedes any traversal). -/
theorem c7_source_eq_target (g : Graph) (a : String) :
    find_path_between_nodes g a a = { path := [a], «exists» := true, distance := some 0 } := by
  simp [find_path_between_nodes]

/-! ### Walk lemmas -/

lemma isWalk_singleton (g : Graph) (a : String) : IsWalk g a a [a] :=
  ⟨rfl, rfl, List.chain'_singleton a⟩

lemma isWalk_append_last {g : Graph} {a c b : String} {p : List String}
    (hw : IsWalk g a c p) (hs : stepRel g c b) : IsWalk g a b (p ++ [b]) := by
  obtain ⟨h1, h2, h3⟩ := hw
  have hp : p ≠ [] := by rintro rfl; simp at h1
  refine ⟨?_, ?_, ?_⟩
  · rw [List.head?_append, h1]; rfl
  · rw [List.getLast?_append]; rfl
  · refine List.Chain'.append h3 (List.chain'_singleton b) ?_
    intro x hx y hy
    rw [h2, Option.mem_def, Option.some_inj] at hx
    simp only [List.head?_cons, Option.mem_def, Option.some_inj] at hy
    subst hx
    subst hy
    exact hs

lemma reachable_step {g : Graph} {a c b : String}
    (h : Reachable g a c) (hs : stepRel g c b) : Reachable g a b := by
  obtain ⟨p, hp⟩ := h
  exact ⟨p ++ [b], isWalk_append_last hp hs⟩

lemma mem_outPairs {g : Graph} {a b : String} {w : ℚ} :
    (b, w) ∈ outPairs g a ↔ ∃ e ∈ g.edges, e.«from» = a ∧ e.«to» = b ∧ edgeWeight e = w := by
  unfold outPairs
  simp only [List.mem_map, List.mem_filter, beq_iff_eq, Prod.mk.injEq]
  constructor
  · rintro ⟨e, ⟨he, hf⟩, ht, hw⟩
    exact ⟨e, he, hf, ht, hw⟩
  · rintro ⟨e, he, hf, ht, hw⟩
    exact ⟨e, ⟨he, hf⟩, ht, hw⟩

lemma stepRel_of_mem_outPairs {g : Graph} {a b : String} {w : ℚ}
    (h : (b, w) ∈ outPairs g a) : stepRel g a b := by
  obtain ⟨e, he, hf, ht, _⟩ := mem_outPairs.1 h
  exact ⟨e, he, hf, ht⟩

/-! ### BFS loop reduction -/

lemma outPairs_eq_nil_of_adjGetP_none {g : Graph} {n : String}
    (h : adjGetP g n = none) : outPairs g n = [] := by
  unfold adjGetP at h
  split at h
  · exact absurd h (by simp)
  · next hc =>
    push_neg at hc
    unfold outPairs
    have hnil : List.filter (fun e => e.«from» == n) g.edges = [] := by
      rw [List.filter_eq_nil_iff]
      intro e he hbe
      exact hc.2 (List.any_eq_true.2 ⟨e, he, hbe⟩)
    rw [hnil]
    rfl

lemma adjGetP_some_eq {g : Graph} {n : String} {l : List (String × ℚ)}
    (h : adjGetP g n = some l) : l = outPairs g n := by
  unfold adjGetP at h
  split at h
  · exact (Option.some_inj.1 h).symm
  · exact absurd h (by simp)

/-- One iteration of the BFS loop, with the adjacency-map lookup resolved:
a missing adjacency entry behaves exactly like an empty neighbor list. -/
lemma bfsLoop_cons (g : Graph) (t : String) (fuel : Nat)
    (current : String) (path : List String) (dist : ℚ)
    (queue : List (String × List String × ℚ)) (visited : List String) :
    bfsLoop g t (fuel + 1) ((current, path, dist) :: queue) visited
      = if current == t then { path := path, «exists» := true, distance := some dist }
        else
          bfsLoop g t fuel (enqueueNbrs (outPairs g current) queue visited path dist).1
            (enqueueNbrs (outPairs g current) queue visited path dist).2 := by
  rcases h : adjGetP g current with _ | l
  · simp only [bfsLoop, h, outPairs_eq_nil_of_adjGetP_none h, enqueueNbrs]
  · simp only [bfsLoop, h, ← adjGetP_some_eq h]

/-! ### C10: independence from the declared node list -/

lemma outPairs_congr {g1 g2 : Graph} (h : g1.edges = g2.edges) (n : String) :
    outPairs g1 n = outPairs g2 n := by
  unfold outPairs
  rw [h]

lemma bfsLoop_congr {g1 g2 : Graph} (h : g1.edges = g2.edges) (t : String) :
    ∀ fuel queue visited, bfsLoop g1 t fuel queue visited = bfsLoop g2 t fuel queue visited := by
  intro fuel
  induction fuel with
  | zero => intro queue visited; rfl
  | succ n ih =>
    intro queue visited
    match queue with
    | [] => rfl
    | (current, path, dist) :: rest =>
      rw [bfsLoop_cons, bfsLoop_cons, outPairs_congr h]
      split
      · rfl
      · exact ih _ _

/-- C10: `find_path_between_nodes` never consults the declared node list: two
graphs with the same edge list give identical results for every source and
target (so in particular neither endpoint needs to appear in the node list). -/
theorem c10_find_path_ignores_node_list (g1 g2 : Graph) (f t : String)
    (h : g1.edges = g2.edges) :
    find_path_between_nodes g1 f t = find_path_between_nodes g2 f t := by
  unfold find_path_between_nodes
  split
  · rfl
  · rw [show bfsUniv g1 f = bfsUniv g2 f from by unfold bfsUniv; rw [h]]
    exact bfsLoop_congr h t _ _ _

theorem c10_witness :
    (Graph.mk [] [⟨"A", "B", none⟩]).edges = (Graph.mk ["X"] [⟨"A", "B", none⟩]).edges ∧
    find_path_between_nodes ⟨[], [⟨"A", "B", none⟩]⟩ "A" "B"
      = find_path_between_nodes ⟨["X"], [⟨"A", "B", none⟩]⟩ "A" "B" :=
  ⟨rfl, c10_find_path_ignores_node_list ⟨[], [⟨"A", "B", none⟩]⟩ ⟨["X"], [⟨"A", "B", none⟩]⟩
    "A" "B" rfl⟩

/-! ### C8: unreachable target -/

lemma enqueueNbrs_fst_mem :
    ∀ (pairs : List (String × ℚ)) (q : List (String × List String × ℚ))
      (v p : List String) (d : ℚ) (x : String × List String × ℚ),
      x ∈ (enqueueNbrs pairs q v p d).1 →
      x ∈ q ∨ ∃ w, (x.1, w) ∈ pairs ∧ x.2.1 = p ++ [x.1] ∧ x.2.2 = d + w := by
  intro pairs
  induction pairs with
  | nil => intro q v p d x hx; exact Or.inl hx
  | cons pr rest ih =>
    intro q v p d x hx
    obtain ⟨nb, w⟩ := pr
    rw [enqueueNbrs] at hx
    split at hx
    · rcases ih _ _ _ _ _ hx with hq | ⟨w', hw', h1, h2⟩
      · exact Or.inl hq
      · exact Or.inr ⟨w', List.mem_cons_of_mem _ hw', h1, h2⟩
    · rcases ih _ _ _ _ _ hx with hq | ⟨w', hw', h1, h2⟩
      · rcases List.mem_append.1 hq with hq | hq
        · exact Or.inl hq
        · rw [List.mem_singleton] at hq
          subst hq
          exact Or.inr ⟨w, List.mem_cons_self _ _, rfl, rfl⟩
      · exact Or.inr ⟨w', List.mem_cons_of_mem _ hw', h1, h2⟩

lemma bfsLoop_unreachable {g : Graph} {f t : String} (hnr : ¬ Reachable g f t) :
    ∀ (fuel : Nat) (queue : List (String × List String × ℚ)) (visited : List String),
      (∀ x ∈ queue, Reachable g f x.1) →
      bfsLoop g t fuel queue visited = { path := [], «exists» := false, distance := none } := by
  intro fuel
  induction fuel with
  | zero => intro queue visited _; rfl
  | succ n ih =>
    intro queue visited hq
    match queue with
    | [] => rfl
    | (current, path, dist) :: rest =>
      have hcur : Reachable g f current := hq _ (List.mem_cons_self _ _)
      rw [bfsLoop_cons]
      rw [if_neg (by simpa using fun h : current = t => hnr (h ▸ hcur))]
      refine ih _ _ ?_
      intro x hx
      rcases enqueueNbrs_fst_mem _ _ _ _ _ _ hx with hmem | ⟨w, hw, _, _⟩
      · exact hq _ (List.mem_cons_of_mem _ hmem)
      · exact reachable_step hcur (stepRel_of_mem_outPairs hw)

/-- C8: for distinct source and target with the target unreachable along
directed edges, `find_path_between_nodes` returns exactly the documented
empty result. -/
theorem c8_unreachable_exact_fallback (g : Graph) (f t : String)
    (hne : f ≠ t) (hnr : ¬ Reachable g f t) :
    find_path_between_nodes g f t = { path := [], «exists» := false, distance := none } := by
  unfold find_path_between_nodes
  rw [if_neg (by simpa using hne)]
  exact bfsLoop_unreachable hnr _ _ _ (by
    intro x hx
    rw [List.mem_singleton] at hx
    subst hx
    exact ⟨[f], isWalk_singleton g f⟩)

lemma not_reachable_of_no_edges {g : Graph} {a b : String}
    (he : g.edges = []) (hne : a ≠ b) : ¬ Reachable g a b := by
  rintro ⟨p, h1, h2, h3⟩
  match p, h1, h2, h3 with
  | [], h1, _, _ => simp at h1
  | [x], h1, h2, _ =>
    rw [List.head?_cons, Option.some_inj] at h1
    have h2' : x = b := by simpa using h2
    exact hne (h1.symm.trans h2')
  | x :: y :: rest, _, _, h3 =>
    rw [List.chain'_cons] at h3
    obtain ⟨e, hee, -⟩ := h3.1
    rw [he] at hee
    exact absurd hee (List.not_mem_nil e)

theorem c8_witness :
    ("A" : String) ≠ "B" ∧
    find_path_between_nodes ⟨[], []⟩ "A" "B"
      = { path := [], «exists» := false, distance := none } :=
  ⟨by decide, c8_unreachable_exact_fallback ⟨[], []⟩ "A" "B" (by decide)
    (not_reachable_of_no_edges rfl (by decide))⟩

/-! ### Closed-walk helpers -/

lemma chain_snoc {R : String → String → Prop} :
    ∀ (l : List String) (a b : String), List.Chain R a l → R (l.getLastD a) b →
      List.Chain R a (l ++ [b]) := by
  intro l
  induction l with
  | nil =>
    intro a b _ hr
    exact List.Chain.cons hr List.Chain.nil
  | cons c cs ih =>
    intro a b hch hr
    cases hch with
    | cons hac hccs =>
      rw [List.getLastD_cons] at hr
      exact List.Chain.cons hac (ih c b hccs hr)

lemma chain'_cons_chain {R : String → String → Prop} {a : String} {l : List String}
    (h : List.Chain' R (a :: l)) : List.Chain R a l := h

lemma getLast?_cons_getLastD {a : String} {rest : List String} :
    (a :: rest).getLast? = some (rest.getLastD a) := by
  induction rest generalizing a with
  | nil => rfl
  | cons b bs ih => rw [List.getLast?_cons_cons, ih, List.getLastD_cons]

lemma isCyclicWalk_of_parts {g : Graph} {c : List String} (hne : c ≠ [])
    (hch : List.Chain' (stepRel g) c)
    (hcl : ∀ x ∈ c.getLast?, ∀ y ∈ c.head?, stepRel g x y) : IsCyclicWalk g c := by
  match c, hne with
  | a :: rest, _ =>
    show List.Chain (stepRel g) a (rest ++ [a])
    refine chain_snoc rest a a (chain'_cons_chain hch) ?_
    exact hcl _ (by rw [getLast?_cons_getLastD]; rfl) a rfl

lemma chain_source {g : Graph} {l : List String} {a : String}
    (h : List.Chain (stepRel g) a l) (hne : l ≠ []) : ∃ e ∈ g.edges, e.«from» = a := by
  match l, hne with
  | b :: bs, _ =>
    rw [List.chain_cons] at h
    obtain ⟨e, he, hf, -⟩ := h.1
    exact ⟨e, he, hf⟩

lemma chain_targets {g : Graph} :
    ∀ (l : List String) (a : String), List.Chain (stepRel g) a l →
      ∀ x ∈ l, ∃ e ∈ g.edges, e.«to» = x := by
  intro l
  induction l with
  | nil => intro a _ x hx; exact absurd hx (List.not_mem_nil x)
  | cons b bs ih =>
    intro a h x hx
    rw [List.chain_cons] at h
    rcases List.mem_cons.1 hx with rfl | hx
    · obtain ⟨e, he, -, ht⟩ := h.1
      exact ⟨e, he, ht⟩
    · exact ih b h.2 x hx

/-- The elements of a cyclic walk are edge endpoints. -/
lemma isCyclicWalk_mem_endpoints {g : Graph} {c : List String} (hc : IsCyclicWalk g c) :
    ∀ x ∈ c, ∃ e ∈ g.edges, e.«from» = x ∨ e.«to» = x := by
  match c with
  | [] => exact absurd hc (by simp [IsCyclicWalk])
  | a :: rest =>
    have hch : List.Chain (stepRel g) a (rest ++ [a]) := hc
    intro x hx
    rcases List.mem_cons.1 hx with rfl | hx
    · obtain ⟨e, he, hf⟩ := chain_source hch (by simp)
      exact ⟨e, he, Or.inl hf⟩
    · obtain ⟨e, he, ht⟩ := chain_targets _ _ hch x (List.mem_append.2 (Or.inl hx))
      exact ⟨e, he, Or.inr ht⟩

/-! ### DFS adjacency lemmas -/

lemma mem_outList {g : Graph} {n w : String} : w ∈ outList g n ↔ stepRel g n w := by
  unfold outList stepRel
  simp only [List.mem_map, List.mem_filter, beq_iff_eq]
  constructor
  · rintro ⟨e, ⟨he, hf⟩, ht⟩
    exact ⟨e, he, hf, ht⟩
  · rintro ⟨e, he, hf, ht⟩
    exact ⟨e, ⟨he, hf⟩, ht⟩

lemma outList_eq_nil_of_adjGetC_none {g : Graph} {n : String}
    (h : adjGetC g n = none) : outList g n = [] := by
  unfold adjGetC at h
  split at h
  · exact absurd h (by simp)
  · next hc =>
    push_neg at hc
    unfold outList
    have hnil : List.filter (fun e => e.«from» == n) g.edges = [] := by
      rw [List.filter_eq_nil_iff]
      intro e he hbe
      exact hc.2 (List.any_eq_true.2 ⟨e, he, hbe⟩)
    rw [hnil]
    rfl

lemma adjGetC_some_eq {g : Graph} {n : String} {l : List String}
    (h : adjGetC g n = some l) : l = outList g n := by
  unfold adjGetC at h
  split at h
  · exact (Option.some_inj.1 h).symm
  · exact absurd h (by simp)

/-- One unfolding of `dfsVisit`, with the adjacency lookup resolved: a missing
adjacency entry behaves exactly like an empty neighbor list. -/
lemma dfsVisit_succ (g : Graph) (fuel : Nat) (node : String) (st : DfsSt) :
    dfsVisit g (fuel + 1) node st =
      match dfsLoop (dfsVisit g fuel) (outList g node)
          { st with visited := insertS st.visited node
                    recStack := insertS st.recStack node
                    path := st.path ++ [node] } with
      | (true, st') => (true, st')
      | (false, st') =>
        (false, { st' with recStack := removeS st'.recStack node, path := st'.path.dropLast }) := by
  rcases h : adjGetC g node with _ | nbrs
  · simp only [dfsVisit, h, outList_eq_nil_of_adjGetC_none h, dfsLoop]
  · simp only [dfsVisit, h, ← adjGetC_some_eq h]

/-! ### DFS soundness: every recorded cycle is a closed walk -/

/-- All recorded cycles are genuine closed walks. -/
def CyclesOk (g : Graph) (st : DfsSt) : Prop := ∀ c ∈ st.cycles, IsCyclicWalk g c

lemma dfsLoop_sound {g : Graph} {f : String → DfsSt → Bool × DfsSt}
    (Hf : ∀ n st, CyclesOk g st → List.Chain' (stepRel g) (st.path ++ [n]) →
      CyclesOk g (f n st).2 ∧ ((f n st).1 = false → (f n st).2.path = st.path))
    (node : String) :
    ∀ (nbrs : List String) (st : DfsSt),
      CyclesOk g st → List.Chain' (stepRel g) st.path → st.path.getLast? = some node →
      (∀ nb ∈ nbrs, stepRel g node nb) →
      CyclesOk g (dfsLoop f nbrs st).2 ∧
      ((dfsLoop f nbrs st).1 = false → (dfsLoop f nbrs st).2.path = st.path) := by
  intro nbrs
  induction nbrs with
  | nil =>
    intro st hcy _ _ _
    exact ⟨hcy, fun _ => rfl⟩
  | cons nb rest ih =>
    intro st hcy hch hlast hnb
    have hstep_nb : stepRel g node nb := hnb nb (List.mem_cons_self _ _)
    have hrest : ∀ x ∈ rest, stepRel g node x := fun x hx => hnb x (List.mem_cons_of_mem _ hx)
    have hchnb : List.Chain' (stepRel g) (st.path ++ [nb]) := by
      refine List.Chain'.append hch (List.chain'_singleton nb) ?_
      intro x hx y hy
      rw [hlast, Option.mem_def, Option.some_inj] at hx
      simp only [List.head?_cons, Option.mem_def, Option.some_inj] at hy
      subst hx
      subst hy
      exact hstep_nb
    rw [dfsLoop]
    by_cases h1 : nb ∈ st.visited
    · rw [if_pos h1]
      by_cases h2 : nb ∈ st.recStack
      · rw [if_pos h2]
        cases hpos : st.path.findIdx? (fun x => x == nb) with
        | none => exact ih st hcy hch hlast hrest
        | some pos =>
          obtain ⟨hlt, hget, -⟩ := List.findIdx?_eq_some_iff_getElem.1 hpos
          simp only [beq_iff_eq] at hget
          have hdns : st.path.drop pos ≠ [] := by
            intro h
            have := congrArg List.length h
            simp only [List.length_drop, List.length_nil] at this
            omega
          have hcyc : IsCyclicWalk g (st.path.drop pos) := by
            refine isCyclicWalk_of_parts hdns (hch.suffix (List.drop_suffix pos st.path)) ?_
            intro x hx y hy
            have hgl : (st.path.drop pos).getLast? = some node := by
              obtain ⟨pre, hpre⟩ := List.drop_suffix pos st.path
              rw [← hpre, List.getLast?_append] at hlast
              cases hd : (st.path.drop pos).getLast? with
              | none =>
                rw [List.getLast?_eq_none_iff] at hd
                exact absurd hd hdns
              | some z =>
                rw [hd] at hlast
                simpa using hlast
            rw [hgl, Option.mem_def, Option.some_inj] at hx
            rw [List.head?_drop, List.getElem?_eq_getElem hlt, Option.mem_def,
              Option.some_inj] at hy
            subst hx
            rw [← hy, hget]
            exact hstep_nb
          refine ⟨?_, fun h => absurd h (by simp)⟩
          intro c hc
          simp only [List.mem_append, List.mem_singleton] at hc
          rcases hc with hc | rfl
          · exact hcy c hc
          · exact hcyc
      · rw [if_neg h2]
        exact ih st hcy hch hlast hrest
    · rw [if_neg h1]
      rcases hfv : f nb st with ⟨b, st1⟩
      have hspec := Hf nb st hcy hchnb
      rw [hfv] at hspec
      cases b with
      | true => exact ⟨hspec.1, fun h => absurd h (by simp)⟩
      | false =>
        have hpath : st1.path = st.path := hspec.2 rfl
        have := ih st1 hspec.1 (by rw [hpath]; exact hch) (by rw [hpath]; exact hlast) hrest
        rw [hpath] at this
        exact this

lemma dfsVisit_sound (g : Graph) :
    ∀ (fuel : Nat) (node : String) (st : DfsSt),
      CyclesOk g st → List.Chain' (stepRel g) (st.path ++ [node]) →
      CyclesOk g (dfsVisit g fuel node st).2 ∧
      ((dfsVisit g fuel node st).1 = false → (dfsVisit g fuel node st).2.path = st.path) := by
  intro fuel
  induction fuel with
  | zero =>
    intro node st hcy _
    exact ⟨hcy, fun _ => rfl⟩
  | succ fuel ih =>
    intro node st hcy hch
    rw [dfsVisit_succ]
    have hloop := dfsLoop_sound (f := dfsVisit g fuel)
      (fun n st' hcy' hch' => ih n st' hcy' hch') node (outList g node)
      { st with visited := insertS st.visited node
                recStack := insertS st.recStack node
                path := st.path ++ [node] }
      hcy hch (by simp) (fun nb hnb => mem_outList.1 hnb)
    rcases hres : dfsLoop (dfsVisit g fuel) (outList g node)
        { st with visited := insertS st.visited node
                  recStack := insertS st.recStack node
                  path := st.path ++ [node] } with ⟨b, stL⟩
    rw [hres] at hloop
    cases b with
    | true => exact ⟨hloop.1, fun h => absurd h (by simp)⟩
    | false =>
      refine ⟨hloop.1, fun _ => ?_⟩
      show stL.path.dropLast = st.path
      rw [hloop.2 rfl]
      exact List.dropLast_concat

lemma detect_foldl_sound (g : Graph) :
    ∀ (roots : List String) (st : DfsSt), CyclesOk g st →
      CyclesOk g (roots.foldl
        (fun (st : DfsSt) node =>
          if node ∈ st.visited then st
          else (dfsVisit g ((dfsUniv g).length + 1) node { st with path := [] }).2) st) := by
  intro roots
  induction roots with
  | nil => intro st hcy; exact hcy
  | cons r rs ih =>
    intro st hcy
    rw [List.foldl_cons]
    by_cases h : r ∈ st.visited
    · rw [if_pos h]
      exact ih st hcy
    · rw [if_neg h]
      refine ih _ ?_
      exact (dfsVisit_sound g _ r { st with path := [] } hcy (by simp)).1

lemma detect_cycles_cycles_sound (g : Graph) :
    ∀ c ∈ (detect_cycles_in_graph g).cycles, IsCyclicWalk g c := by
  intro c hc
  exact detect_foldl_sound g g.nodes { visited := [], recStack := [], path := [], cycles := [] }
    (fun c hc => absurd hc (List.not_mem_nil c)) c hc

/-- C9: every cycle recorded by `detect_cycles_in_graph` is a nonempty closed
walk: consecutive elements are joined by edges of the graph and the last
element has an edge back to the first. -/
theorem c9_recorded_cycles_are_closed_walks (g : Graph) (c : List String)
    (hc : c ∈ (detect_cycles_in_graph g).cycles) : IsCyclicWalk g c :=
  detect_cycles_cycles_sound g c hc

theorem c9_witness :
    ["A", "B"] ∈ (detect_cycles_in_graph
        ⟨["A", "B"], [⟨"A", "B", none⟩, ⟨"B", "A", none⟩]⟩).cycles ∧
    IsCyclicWalk ⟨["A", "B"], [⟨"A", "B", none⟩, ⟨"B", "A", none⟩]⟩ ["A", "B"] :=
  ⟨by decide, c9_recorded_cycles_are_closed_walks
    ⟨["A", "B"], [⟨"A", "B", none⟩, ⟨"B", "A", none⟩]⟩ ["A", "B"] (by decide)⟩

/-! ### Finish orders and acyclicity rank arguments -/

/-- `FinOrder g L` says `L` lists nodes most-recently-finished first, and every
edge out of a listed node leads to a node finished strictly earlier (deeper in
the list). -/
def FinOrder (g : Graph) : List String → Prop
  | [] => True
  | v :: L => (∀ w, stepRel g v w → w ∈ L) ∧ FinOrder g L

lemma finOrder_index_lt {g : Graph} :
    ∀ {L : List String}, FinOrder g L → L.Nodup →
      ∀ u w, u ∈ L → stepRel g u w → w ∈ L ∧ L.indexOf u < L.indexOf w := by
  intro L
  induction L with
  | nil => intro _ _ u w hu _; exact absurd hu (List.not_mem_nil u)
  | cons v L ih =>
    intro hF hnd u w hu hs
    obtain ⟨hsucc, hF'⟩ := hF
    rw [List.nodup_cons] at hnd
    rcases List.mem_cons.1 hu with rfl | hu'
    · have hw : w ∈ L := hsucc w hs
      have hwne : w ≠ u := fun h => hnd.1 (h ▸ hw)
      refine ⟨List.mem_cons_of_mem _ hw, ?_⟩
      rw [List.indexOf_cons_self, List.indexOf_cons_ne _ (Ne.symm hwne)]
      exact Nat.succ_pos _
    · obtain ⟨hw, hlt⟩ := ih hF' hnd.2 u w hu' hs
      have hune : u ≠ v := fun h => hnd.1 (h ▸ hu')
      have hwne : w ≠ v := fun h => hnd.1 (h ▸ hw)
      refine ⟨List.mem_cons_of_mem _ hw, ?_⟩
      rw [List.indexOf_cons_ne _ (Ne.symm hune), List.indexOf_cons_ne _ (Ne.symm hwne)]
      exact Nat.succ_lt_succ hlt

lemma chain_indexOf_lt {g : Graph} {L : List String}
    (h : ∀ u w, u ∈ L → stepRel g u w → w ∈ L ∧ L.indexOf u < L.indexOf w) :
    ∀ (l : List String) (a : String), List.Chain (stepRel g) a l → a ∈ L → l ≠ [] →
      L.indexOf a < L.indexOf (l.getLastD a) := by
  intro l
  induction l with
  | nil => intro a _ _ hne; exact absurd rfl hne
  | cons b bs ih =>
    intro a hch ha _
    rw [List.chain_cons] at hch
    obtain ⟨hb, hlt⟩ := h a b ha hch.1
    rw [List.getLastD_cons]
    cases bs with
    | nil => exact hlt
    | cons c cs =>
      exact hlt.trans (ih b hch.2 hb (by simp))

/-- If edges always lead strictly later in a duplicate-free order `L`, no
closed walk can live inside `L`. -/
lemma no_cyclicWalk_of_increasing {g : Graph} {L : List String}
    (h : ∀ u w, u ∈ L → stepRel g u w → w ∈ L ∧ L.indexOf u < L.indexOf w)
    {c : List String} (hc : IsCyclicWalk g c) (hsub : ∀ x ∈ c, x ∈ L) : False := by
  match c with
  | [] => exact hc
  | a :: rest =>
    have hch : List.Chain (stepRel g) a (rest ++ [a]) := hc
    have ha : a ∈ L := hsub a (List.mem_cons_self _ _)
    have := chain_indexOf_lt h (rest ++ [a]) a hch ha (by simp)
    rw [List.getLastD_concat] at this
    exact Nat.lt_irrefl _ this

/-! ### Set-model lemmas for the DFS state -/

lemma insertS_eq_append {s : List String} {x : String} (h : x ∉ s) :
    insertS s x = s ++ [x] := by
  unfold insertS
  rw [if_neg h]

lemma mem_removeS {s : List String} {x y : String} :
    y ∈ removeS s x ↔ y ∈ s ∧ y ≠ x := by
  unfold removeS
  rw [List.mem_filter]
  simp

lemma removeS_append_singleton {s : List String} {x : String} (h : x ∉ s) :
    removeS (s ++ [x]) x = s := by
  unfold removeS
  rw [List.filter_append]
  have h1 : s.filter (fun y => y ≠ x) = s := by
    rw [List.filter_eq_self]
    intro a ha
    simp only [ne_eq, decide_eq_true_eq]
    exact fun hax => h (hax ▸ ha)
  have h2 : [x].filter (fun y => (y ≠ x : Bool)) = [] := by simp
  rw [h1, h2, List.append_nil]

/-- The number of universe nodes not yet visited. -/
def unvisCount (g : Graph) (visited : List String) : Nat :=
  ((dfsUniv g).filter (fun x => decide (x ∉ visited))).length

lemma unvisCount_le_of_subset {g : Graph} {v v' : List String}
    (h : ∀ y ∈ v, y ∈ v') : unvisCount g v' ≤ unvisCount g v := by
  refine List.Sublist.length_le (List.monotone_filter_right _ ?_)
  intro a ha
  simp only [decide_eq_true_eq] at ha ⊢
  exact fun hav => ha (h a hav)

lemma unvisCount_lt_of_insert {g : Graph} {v : List String} {x : String}
    (hx : x ∈ dfsUniv g) (hnx : x ∉ v) :
    unvisCount g (insertS v x) < unvisCount g v := by
  have hsub : ((dfsUniv g).filter (fun y => decide (y ∉ insertS v x))).Sublist
      ((dfsUniv g).filter (fun y => decide (y ∉ v))) := by
    refine List.monotone_filter_right _ ?_
    intro a ha
    simp only [decide_eq_true_eq, mem_insertS] at ha ⊢
    exact fun hav => ha (Or.inr hav)
  rcases Nat.lt_or_ge ((dfsUniv g).filter (fun y => decide (y ∉ insertS v x))).length
      ((dfsUniv g).filter (fun y => decide (y ∉ v))).length with h | h
  · exact h
  · exfalso
    have heq := hsub.eq_of_length (Nat.le_antisymm hsub.length_le h)
    have hx1 : x ∈ (dfsUniv g).filter (fun y => decide (y ∉ v)) := by
      rw [List.mem_filter]
      exact ⟨hx, by simpa using hnx⟩
    rw [← heq, List.mem_filter] at hx1
    have := hx1.2
    simp only [decide_eq_true_eq, mem_insertS] at this
    exact this (Or.inl trivial)

lemma mem_dfsUniv_of_step {g : Graph} {n w : String} (h : stepRel g n w) :
    w ∈ dfsUniv g := by
  obtain ⟨e, he, -, ht⟩ := h
  unfold dfsUniv
  rw [List.mem_dedup, List.mem_append]
  exact Or.inr (List.mem_map.2 ⟨e, he, ht⟩)

lemma mem_dfsUniv_of_node {g : Graph} {n : String} (h : n ∈ g.nodes) :
    n ∈ dfsUniv g := by
  unfold dfsUniv
  rw [List.mem_dedup, List.mem_append]
  exact Or.inl h

/-! ### DFS completeness: an undetected cycle is impossible -/

/-- Structural invariants of the DFS state: the recursion stack is contained in
the visited set and holds exactly the nodes of the current path. -/
def StInv (st : DfsSt) : Prop :=
  (∀ x ∈ st.recStack, x ∈ st.visited) ∧ (∀ x, x ∈ st.recStack ↔ x ∈ st.path)

/-- `L` lists exactly the finished nodes (visited and off the recursion stack),
without duplicates, in a valid finish order. -/
def DoneEq (g : Graph) (st : DfsSt) (L : List String) : Prop :=
  (∀ v, v ∈ L ↔ (v ∈ st.visited ∧ v ∉ st.recStack)) ∧ L.Nodup ∧ FinOrder g L

lemma dfsLoop_cycles_append {f : String → DfsSt → Bool × DfsSt}
    (Hf : ∀ n st, ∃ t, (f n st).2.cycles = st.cycles ++ t ∧ ((f n st).1 = true → t ≠ [])) :
    ∀ (nbrs : List String) (st : DfsSt),
      ∃ t, (dfsLoop f nbrs st).2.cycles = st.cycles ++ t ∧
        ((dfsLoop f nbrs st).1 = true → t ≠ []) := by
  intro nbrs
  induction nbrs with
  | nil => intro st; exact ⟨[], by simp [dfsLoop]⟩
  | cons nb rest ih =>
    intro st
    rw [dfsLoop]
    by_cases h1 : nb ∈ st.visited
    · rw [if_pos h1]
      by_cases h2 : nb ∈ st.recStack
      · rw [if_pos h2]
        cases hpos : st.path.findIdx? (fun x => x == nb) with
        | none => exact ih st
        | some pos => exact ⟨[st.path.drop pos], by simp⟩
      · rw [if_neg h2]
        exact ih st
    · rw [if_neg h1]
      rcases hfv : f nb st with ⟨b, st1⟩
      obtain ⟨t1, ht1, htt1⟩ := Hf nb st
      rw [hfv] at ht1 htt1
      cases b with
      | true => exact ⟨t1, ht1, fun _ => htt1 rfl⟩
      | false =>
        obtain ⟨t2, ht2, htt2⟩ := ih st1
        refine ⟨t1 ++ t2, ?_, ?_⟩
        · rw [ht2, ht1, List.append_assoc]
        · intro hb
          have := htt2 hb
          intro happ
          rcases List.append_eq_nil.1 happ with ⟨-, h⟩
          exact this h

lemma dfsVisit_cycles_append (g : Graph) :
    ∀ (fuel : Nat) (n : String) (st : DfsSt),
      ∃ t, (dfsVisit g fuel n st).2.cycles = st.cycles ++ t ∧
        ((dfsVisit g fuel n st).1 = true → t ≠ []) := by
  intro fuel
  induction fuel with
  | zero => intro n st; exact ⟨[], by simp [dfsVisit]⟩
  | succ fuel ih =>
    intro n st
    rw [dfsVisit_succ]
    obtain ⟨t, ht, htt⟩ := dfsLoop_cycles_append ih (outList g n)
      { st with visited := insertS st.visited n
                recStack := insertS st.recStack n
                path := st.path ++ [n] }
    rcases hres : dfsLoop (dfsVisit g fuel) (outList g n)
        { st with visited := insertS st.visited n
                  recStack := insertS st.recStack n
                  path := st.path ++ [n] } with ⟨b, stL⟩
    rw [hres] at ht htt
    cases b with
    | true => exact ⟨t, ht, fun _ => htt rfl⟩
    | false => exact ⟨t, ht, fun h => absurd h (by simp)⟩

/-- The property of `dfsVisit` at a given fuel that the completeness argument
consumes: a false-returning visit of an unvisited node restores the recursion
stack and path, grows the visited set, and extends the finish order. -/
def VisitFalseSpec (g : Graph) (fuel : Nat) : Prop :=
  ∀ (node : String) (st st' : DfsSt) (L : List String),
    node ∈ dfsUniv g → node ∉ st.visited → StInv st → DoneEq g st L →
    unvisCount g st.visited ≤ fuel →
    dfsVisit g fuel node st = (false, st') →
    StInv st' ∧ st'.recStack = st.recStack ∧ st'.path = st.path ∧
    (∀ x ∈ st.visited, x ∈ st'.visited) ∧ node ∈ st'.visited ∧
    unvisCount g st'.visited < unvisCount g st.visited ∧
    ∃ L', DoneEq g st' L' ∧ (∀ x ∈ L, x ∈ L') ∧ node ∈ L'

lemma dfsLoop_false_spec {g : Graph} {fuel : Nat} (Hf : VisitFalseSpec g fuel) :
    ∀ (nbrs : List String) (st st' : DfsSt) (L : List String),
      (∀ nb ∈ nbrs, nb ∈ dfsUniv g) → StInv st → DoneEq g st L →
      unvisCount g st.visited ≤ fuel →
      dfsLoop (dfsVisit g fuel) nbrs st = (false, st') →
      StInv st' ∧ st'.recStack = st.recStack ∧ st'.path = st.path ∧
      (∀ x ∈ st.visited, x ∈ st'.visited) ∧
      unvisCount g st'.visited ≤ unvisCount g st.visited ∧
      ∃ L', DoneEq g st' L' ∧ (∀ x ∈ L, x ∈ L') ∧ (∀ nb ∈ nbrs, nb ∈ L') := by
  intro nbrs
  induction nbrs with
  | nil =>
    intro st st' L _ hst hdone _ hrun
    rw [dfsLoop] at hrun
    obtain ⟨-, rfl⟩ := Prod.mk.injEq _ _ _ _ ▸ hrun
    exact ⟨hst, rfl, rfl, fun x hx => hx, Nat.le_refl _,
      L, hdone, fun x hx => hx, fun nb hnb => absurd hnb (List.not_mem_nil nb)⟩
  | cons nb rest ih =>
    intro st st' L hnbrs hst hdone hfuel hrun
    rw [dfsLoop] at hrun
    by_cases h1 : nb ∈ st.visited
    · rw [if_pos h1] at hrun
      by_cases h2 : nb ∈ st.recStack
      · rw [if_pos h2] at hrun
        cases hpos : st.path.findIdx? (fun x => x == nb) with
        | none =>
          exfalso
          have hmem : nb ∈ st.path := (hst.2 nb).1 h2
          have := List.findIdx?_eq_none_iff.1 hpos nb hmem
          simp at this
        | some pos =>
          rw [hpos] at hrun
          exact absurd (congrArg Prod.fst hrun) (by simp)
      · rw [if_neg h2] at hrun
        obtain ⟨hst', hrs, hpa, hvm, hcnt, L', hdone', hLm, hrm⟩ :=
          ih st st' L (fun x hx => hnbrs x (List.mem_cons_of_mem _ hx)) hst hdone hfuel hrun
        refine ⟨hst', hrs, hpa, hvm, hcnt, L', hdone', hLm, ?_⟩
        intro x hx
        rcases List.mem_cons.1 hx with rfl | hx'
        · exact hLm x ((hdone.1 x).2 ⟨h1, h2⟩)
        · exact hrm x hx'
    · rw [if_neg h1] at hrun
      rcases hfv : dfsVisit g fuel nb st with ⟨b, st1⟩
      rw [hfv] at hrun
      cases b with
      | true => exact absurd (congrArg Prod.fst hrun) (by simp)
      | false =>
        obtain ⟨hst1, hrs1, hpa1, hvm1, hnbv, hcnt1, L1, hdone1, hLm1, hnbL1⟩ :=
          Hf nb st st1 L (hnbrs nb (List.mem_cons_self _ _)) h1 hst hdone hfuel hfv
        obtain ⟨hst', hrs2, hpa2, hvm2, hcnt2, L2, hdone2, hLm2, hrm2⟩ :=
          ih st1 st' L1 (fun x hx => hnbrs x (List.mem_cons_of_mem _ hx)) hst1 hdone1
            (Nat.le_of_lt (Nat.lt_of_lt_of_le hcnt1 hfuel)) hrun
        refine ⟨hst', hrs2.trans hrs1, hpa2.trans hpa1,
          fun x hx => hvm2 x (hvm1 x hx),
          Nat.le_trans hcnt2 (Nat.le_of_lt hcnt1),
          L2, hdone2, fun x hx => hLm2 x (hLm1 x hx), ?_⟩
        intro x hx
        rcases List.mem_cons.1 hx with rfl | hx'
        · exact hLm2 x hnbL1
        · exact hrm2 x hx'

lemma unvisCount_pos {g : Graph} {v : List String} {x : String}
    (hx : x ∈ dfsUniv g) (hnx : x ∉ v) : 0 < unvisCount g v := by
  unfold unvisCount
  rw [List.length_pos]
  intro h
  have : x ∈ (dfsUniv g).filter (fun y => decide (y ∉ v)) := by
    rw [List.mem_filter]
    exact ⟨hx, by simpa using hnx⟩
  rw [h] at this
  exact List.not_mem_nil x this

lemma dfsVisit_false_spec (g : Graph) : ∀ fuel, VisitFalseSpec g fuel := by
  intro fuel
  induction fuel with
  | zero =>
    intro node st st' L hnode hnv _ _ hfuel _
    have := unvisCount_pos hnode hnv
    omega
  | succ fuel ih =>
    intro node st st' L hnode hnv hst hdone hfuel hrun
    have hnode_nr : node ∉ st.recStack := fun h => hnv (hst.1 node h)
    have hnode_np : node ∉ st.path := fun h => hnode_nr ((hst.2 node).2 h)
    have hrs_eq : insertS st.recStack node = st.recStack ++ [node] :=
      insertS_eq_append hnode_nr
    rw [dfsVisit_succ] at hrun
    rcases hres : dfsLoop (dfsVisit g fuel) (outList g node)
        { st with visited := insertS st.visited node
                  recStack := insertS st.recStack node
                  path := st.path ++ [node] } with ⟨b, stL⟩
    rw [hres] at hrun
    cases b with
    | true => exact absurd (congrArg Prod.fst hrun) (by simp)
    | false =>
    obtain ⟨-, rfl⟩ := Prod.mk.injEq _ _ _ _ ▸ hrun
    have hst1 : StInv { st with visited := insertS st.visited node
                                recStack := insertS st.recStack node
                                path := st.path ++ [node] } := by
      constructor
      · intro x hx
        simp only [hrs_eq, List.mem_append, List.mem_singleton] at hx
        rcases hx with hx | rfl
        · exact mem_insertS.2 (Or.inr (hst.1 x hx))
        · exact mem_insertS.2 (Or.inl rfl)
      · intro x
        simp only [hrs_eq, List.mem_append, List.mem_singleton]
        rw [← hst.2 x]
    have hdone1 : DoneEq g { st with visited := insertS st.visited node
                                     recStack := insertS st.recStack node
                                     path := st.path ++ [node] } L := by
      refine ⟨?_, hdone.2.1, hdone.2.2⟩
      intro v
      show v ∈ L ↔ v ∈ insertS st.visited node ∧ v ∉ insertS st.recStack node
      rw [hdone.1 v]
      constructor
      · rintro ⟨hvv, hvr⟩
        have hvne : v ≠ node := fun h => hnv (h ▸ hvv)
        refine ⟨mem_insertS.2 (Or.inr hvv), fun hc => ?_⟩
        rcases mem_insertS.1 hc with h | h
        · exact hvne h
        · exact hvr h
      · rintro ⟨hvv, hvr⟩
        have hvne : v ≠ node := fun h => hvr (h ▸ mem_insertS.2 (Or.inl rfl))
        rcases mem_insertS.1 hvv with h | h
        · exact absurd h hvne
        · exact ⟨h, fun hc => hvr (mem_insertS.2 (Or.inr hc))⟩
    have hcnt1 : unvisCount g (insertS st.visited node) < unvisCount g st.visited :=
      unvisCount_lt_of_insert hnode hnv
    obtain ⟨hstL, hrsL, hpaL, hvmL, hcntL, LL, hdoneL, hLmL, houtL⟩ :=
      dfsLoop_false_spec ih (outList g node) _ stL L
        (fun nb hnb => mem_dfsUniv_of_step (mem_outList.1 hnb))
        hst1 hdone1 (show unvisCount g (insertS st.visited node) ≤ fuel by omega) hres
    have hrsL' : stL.recStack = st.recStack ++ [node] := by rw [hrsL]; exact hrs_eq
    have hpaL' : stL.path = st.path ++ [node] := hpaL
    have hnodeL : node ∈ stL.visited := hvmL node (mem_insertS.2 (Or.inl rfl))
    refine ⟨?_, ?_, ?_, ?_, hnodeL, ?_, ?_⟩
    · constructor
      · intro x hx
        show x ∈ stL.visited
        rw [mem_removeS] at hx
        rw [hrsL'] at hx
        rcases List.mem_append.1 hx.1 with h | h
        · exact hvmL x (mem_insertS.2 (Or.inr (hst.1 x h)))
        · exact absurd (List.mem_singleton.1 h) hx.2
      · intro x
        show x ∈ removeS stL.recStack node ↔ x ∈ stL.path.dropLast
        rw [hrsL', hpaL', List.dropLast_concat, mem_removeS]
        constructor
        · rintro ⟨hx, hxne⟩
          rcases List.mem_append.1 hx with h | h
          · exact (hst.2 x).1 h
          · exact absurd (List.mem_singleton.1 h) hxne
        · intro hx
          have hxr : x ∈ st.recStack := (hst.2 x).2 hx
          exact ⟨List.mem_append.2 (Or.inl hxr), fun h => hnode_nr (h ▸ hxr)⟩
    · show removeS stL.recStack node = st.recStack
      rw [hrsL']
      exact removeS_append_singleton hnode_nr
    · show stL.path.dropLast = st.path
      rw [hpaL']
      exact List.dropLast_concat
    · intro x hx
      exact hvmL x (mem_insertS.2 (Or.inr hx))
    · show unvisCount g stL.visited < unvisCount g st.visited
      have hcntL2 : unvisCount g stL.visited ≤ unvisCount g (insertS st.visited node) := hcntL
      omega
    · refine ⟨node :: LL, ⟨?_, ?_, ?_⟩, ?_, List.mem_cons_self _ _⟩
      · intro v
        show v ∈ node :: LL ↔ v ∈ stL.visited ∧ v ∉ removeS stL.recStack node
        rw [List.mem_cons]
        constructor
        · rintro (rfl | hv)
          · refine ⟨hnodeL, fun hc => ?_⟩
            exact (mem_removeS.1 hc).2 rfl
          · obtain ⟨hvv, hvr⟩ := (hdoneL.1 v).1 hv
            exact ⟨hvv, fun hc => hvr (mem_removeS.1 hc).1⟩
        · rintro ⟨hvv, hvr⟩
          by_cases hvn : v = node
          · exact Or.inl hvn
          · refine Or.inr ((hdoneL.1 v).2 ⟨hvv, fun hc => ?_⟩)
            exact hvr (mem_removeS.2 ⟨hc, hvn⟩)
      · rw [List.nodup_cons]
        refine ⟨fun hc => ?_, hdoneL.2.1⟩
        have := ((hdoneL.1 node).1 hc).2
        rw [hrsL'] at this
        exact this (List.mem_append.2 (Or.inr (List.mem_singleton.2 rfl)))
      · exact ⟨fun w hw => houtL w (mem_outList.2 hw), hdoneL.2.2⟩
      · intro x hx
        exact List.mem_cons_of_mem _ (hLmL x hx)

lemma detect_foldl_cycles_append (g : Graph) :
    ∀ (roots : List String) (st : DfsSt),
      ∃ t, (roots.foldl
        (fun (st : DfsSt) node =>
          if node ∈ st.visited then st
          else (dfsVisit g ((dfsUniv g).length + 1) node { st with path := [] }).2) st).cycles
        = st.cycles ++ t := by
  intro roots
  induction roots with
  | nil => intro st; exact ⟨[], by simp⟩
  | cons r rs ih =>
    intro st
    rw [List.foldl_cons]
    by_cases h : r ∈ st.visited
    · rw [if_pos h]; exact ih st
    · rw [if_neg h]
      obtain ⟨t1, ht1, -⟩ :=
        dfsVisit_cycles_append g ((dfsUniv g).length + 1) r { st with path := [] }
      obtain ⟨t2, ht2⟩ := ih (dfsVisit g ((dfsUniv g).length + 1) r { st with path := [] }).2
      exact ⟨t1 ++ t2, by rw [ht2, ht1]; simp⟩

lemma unvisCount_le_fuel (g : Graph) (v : List String) :
    unvisCount g v ≤ (dfsUniv g).length + 1 :=
  Nat.le_trans (List.length_filter_le _ _) (Nat.le_succ _)

lemma detect_foldl_false (g : Graph) :
    ∀ (roots : List String) (st : DfsSt) (L : List String),
      (∀ r ∈ roots, r ∈ dfsUniv g) → st.recStack = [] → DoneEq g st L →
      (roots.foldl
        (fun (st : DfsSt) node =>
          if node ∈ st.visited then st
          else (dfsVisit g ((dfsUniv g).length + 1) node { st with path := [] }).2) st).cycles
        = [] →
      ∃ L', DoneEq g (roots.foldl
          (fun (st : DfsSt) node =>
            if node ∈ st.visited then st
            else (dfsVisit g ((dfsUniv g).length + 1) node { st with path := [] }).2) st) L' ∧
        (roots.foldl
          (fun (st : DfsSt) node =>
            if node ∈ st.visited then st
            else (dfsVisit g ((dfsUniv g).length + 1) node { st with path := [] }).2) st).recStack
          = [] ∧
        (∀ x ∈ st.visited, x ∈ (roots.foldl
          (fun (st : DfsSt) node =>
            if node ∈ st.visited then st
            else (dfsVisit g ((dfsUniv g).length + 1) node { st with path := [] }).2) st).visited) ∧
        (∀ r ∈ roots, r ∈ (roots.foldl
          (fun (st : DfsSt) node =>
            if node ∈ st.visited then st
            else (dfsVisit g ((dfsUniv g).length + 1) node { st with path := [] }).2) st).visited) := by
  intro roots
  induction roots with
  | nil =>
    intro st L _ hrs hdone _
    exact ⟨L, hdone, hrs, fun x hx => hx, fun r hr => absurd hr (List.not_mem_nil r)⟩
  | cons r rs ih =>
    intro st L hroots hrs hdone hnil
    rw [List.foldl_cons] at hnil ⊢
    by_cases h : r ∈ st.visited
    · rw [if_pos h] at hnil ⊢
      obtain ⟨L', hdone', hrs', hmono, hall⟩ :=
        ih st L (fun x hx => hroots x (List.mem_cons_of_mem _ hx)) hrs hdone hnil
      refine ⟨L', hdone', hrs', hmono, ?_⟩
      intro x hx
      rcases List.mem_cons.1 hx with rfl | hx'
      · exact hmono x h
      · exact hall x hx'
    · rw [if_neg h] at hnil ⊢
      rcases hv : dfsVisit g ((dfsUniv g).length + 1) r
          { visited := st.visited, recStack := st.recStack, path := [], cycles := st.cycles }
        with ⟨b, st1⟩
      simp only [hv] at hnil ⊢
      have hst1nil : st1.cycles = [] := by
        obtain ⟨t2, ht2⟩ := detect_foldl_cycles_append g rs st1
        rw [ht2] at hnil
        exact (List.append_eq_nil.1 hnil).1
      have hbf : b = false := by
        obtain ⟨t1, ht1, htt1⟩ :=
          dfsVisit_cycles_append g ((dfsUniv g).length + 1) r { st with path := [] }
        rw [hv] at ht1 htt1
        cases b with
        | false => rfl
        | true =>
          exfalso
          apply htt1 rfl
          rw [hst1nil] at ht1
          exact (List.append_eq_nil.1 ht1.symm).2
      subst hbf
      have hstinv : StInv { st with path := [] } := by
        constructor
        · intro x hx
          rw [show ({ st with path := [] } : DfsSt).recStack = st.recStack from rfl, hrs] at hx
          exact absurd hx (List.not_mem_nil x)
        · intro x
          show x ∈ st.recStack ↔ x ∈ []
          rw [hrs]
      obtain ⟨-, hrs1, -, hmono1, hrv1, -, L1, hdone1, hL1, -⟩ :=
        dfsVisit_false_spec g ((dfsUniv g).length + 1) r { st with path := [] } st1 L
          (hroots r (List.mem_cons_self _ _)) h hstinv hdone
          (unvisCount_le_fuel g _) hv
      have hrs1' : st1.recStack = [] := by rw [hrs1]; exact hrs
      obtain ⟨L', hdone', hrs', hmono2, hall2⟩ :=
        ih st1 L1 (fun x hx => hroots x (List.mem_cons_of_mem _ hx)) hrs1' hdone1 hnil
      refine ⟨L', hdone', hrs', fun x hx => hmono2 x (hmono1 x hx), ?_⟩
      intro x hx
      rcases List.mem_cons.1 hx with rfl | hx'
      · exact hmono2 x hrv1
      · exact hall2 x hx'

lemma detect_cycles_complete (g : Graph)
    (hwf : ∀ e ∈ g.edges, e.«from» ∈ g.nodes ∧ e.«to» ∈ g.nodes)
    {c : List String} (hc : IsCyclicWalk g c) :
    (detect_cycles_in_graph g).has_cycle = true := by
  by_contra h
  have hnil : (detect_cycles_in_graph g).cycles = [] := by
    have hh : (detect_cycles_in_graph g).has_cycle
        = !(detect_cycles_in_graph g).cycles.isEmpty := rfl
    rcases he : (detect_cycles_in_graph g).cycles with _ | ⟨x, xs⟩
    · rfl
    · rw [hh, he] at h
      simp at h
  have hnil' : (g.nodes.foldl
      (fun (st : DfsSt) node =>
        if node ∈ st.visited then st
        else (dfsVisit g ((dfsUniv g).length + 1) node { st with path := [] }).2)
      { visited := [], recStack := [], path := [], cycles := [] }).cycles = [] := hnil
  obtain ⟨L', hdone', hrs', -, hallv⟩ := detect_foldl_false g g.nodes
    { visited := [], recStack := [], path := [], cycles := [] } []
    (fun r hr => mem_dfsUniv_of_node hr) rfl
    (⟨fun v => by simp, List.nodup_nil, trivial⟩) hnil'
  have hsub : ∀ x ∈ c, x ∈ L' := by
    intro x hx
    obtain ⟨e, he, hor⟩ := isCyclicWalk_mem_endpoints hc x hx
    have hxn : x ∈ g.nodes := by
      rcases hor with h1 | h1
      · exact h1 ▸ (hwf e he).1
      · exact h1 ▸ (hwf e he).2
    refine (hdone'.1 x).2 ⟨hallv x hxn, ?_⟩
    rw [hrs']
    exact List.not_mem_nil x
  exact no_cyclicWalk_of_increasing (finOrder_index_lt hdone'.2.2 hdone'.2.1) hc hsub

lemma detect_cycles_sound_dir (g : Graph)
    (h : (detect_cycles_in_graph g).has_cycle = true) : ∃ c, IsCyclicWalk g c := by
  have hne : (detect_cycles_in_graph g).cycles ≠ [] := by
    intro hnil
    have hh : (detect_cycles_in_graph g).has_cycle
        = !(detect_cycles_in_graph g).cycles.isEmpty := rfl
    rw [hh, hnil] at h
    simp at h
  obtain ⟨c, hc⟩ := List.exists_mem_of_ne_nil _ hne
  exact ⟨c, detect_cycles_cycles_sound g c hc⟩

/-- C1 (amended): for every graph whose edge endpoints all appear in the node
list, `detect_cycles_in_graph` reports `has_cycle = true` exactly when the
graph contains a directed cycle. -/
theorem c1_has_cycle_iff_cycle_wf (g : Graph)
    (hwf : ∀ e ∈ g.edges, e.«from» ∈ g.nodes ∧ e.«to» ∈ g.nodes) :
    (detect_cycles_in_graph g).has_cycle = true ↔ ∃ c, IsCyclicWalk g c :=
  ⟨detect_cycles_sound_dir g, fun ⟨_, hc⟩ => detect_cycles_complete g hwf hc⟩

/-- C1 as stated fails: a self-loop on a node absent from the declared node
list is a directed cycle the DFS never reaches, because traversal roots come
only from the node list. -/
theorem c1_counterexample :
    ¬ (((detect_cycles_in_graph ⟨[], [⟨"B", "B", none⟩]⟩).has_cycle = true) ↔
       (∃ c, IsCyclicWalk ⟨[], [⟨"B", "B", none⟩]⟩ c)) := by
  intro h
  have hcyc : IsCyclicWalk ⟨[], [⟨"B", "B", none⟩]⟩ ["B"] := by
    show List.Chain (stepRel _) "B" ([] ++ ["B"])
    exact List.Chain.cons ⟨⟨"B", "B", none⟩, List.mem_singleton.2 rfl, rfl, rfl⟩ List.Chain.nil
  exact absurd (h.2 ⟨["B"], hcyc⟩) (by decide)

theorem c1_witness :
    (∀ e ∈ (Graph.mk ["A", "B"] [⟨"A", "B", none⟩, ⟨"B", "A", none⟩]).edges,
      e.«from» ∈ (Graph.mk ["A", "B"] [⟨"A", "B", none⟩, ⟨"B", "A", none⟩]).nodes ∧
      e.«to» ∈ (Graph.mk ["A", "B"] [⟨"A", "B", none⟩, ⟨"B", "A", none⟩]).nodes) ∧
    ((detect_cycles_in_graph ⟨["A", "B"], [⟨"A", "B", none⟩, ⟨"B", "A", none⟩]⟩).has_cycle = true
      ↔ ∃ c, IsCyclicWalk ⟨["A", "B"], [⟨"A", "B", none⟩, ⟨"B", "A", none⟩]⟩ c) :=
  ⟨by decide, c1_has_cycle_iff_cycle_wf ⟨["A", "B"], [⟨"A", "B", none⟩, ⟨"B", "A", none⟩]⟩
    (by decide)⟩

/-! ### Counting tools for Kahn's algorithm -/

/-- The number of edges into `v` whose source lies in `S`: the decrements `v`
has received once every node of `S` has been expanded. -/
def inFrom (g : Graph) (S : List String) (v : String) : Nat :=
  g.edges.countP (fun e => e.«to» == v && decide (e.«from» ∈ S))

lemma length_filter_or_disjoint {α : Type} (l : List α) (p q : α → Bool)
    (hdisj : ∀ a ∈ l, ¬(p a = true ∧ q a = true)) :
    l.countP (fun a => p a || q a) = l.countP p + l.countP q := by
  induction l with
  | nil => simp
  | cons a rest ih =>
    have hd : ∀ x ∈ rest, ¬(p x = true ∧ q x = true) :=
      fun x hx => hdisj x (List.mem_cons_of_mem _ hx)
    rw [List.countP_cons, List.countP_cons, List.countP_cons, ih hd]
    rcases hp : p a with _ | _ <;> rcases hq : q a with _ | _
    · simp [hp, hq] <;> omega
    · simp [hp, hq] <;> omega
    · simp [hp, hq] <;> omega
    · exact absurd ⟨hp, hq⟩ (hdisj a (List.mem_cons_self _ _))

lemma mem_of_countP_eq {α : Type} {l : List α} {p q : α → Bool}
    (himp : ∀ a ∈ l, p a = true → q a = true)
    (hlen : l.countP q ≤ l.countP p) : ∀ a ∈ l, q a = true → p a = true := by
  intro a ha hq
  by_contra hp
  rw [Bool.not_eq_true] at hp
  have hsplit : l.countP q = l.countP p + l.countP (fun x => q x && !p x) := by
    have h1 : l.countP q = l.countP (fun x => (q x && p x) || (q x && !p x)) := by
      refine List.countP_congr ?_
      intro x _
      rcases hb : p x with _ | _ <;> rcases hb2 : q x with _ | _ <;> simp [hb, hb2]
    have h2 : l.countP (fun x => (q x && p x) || (q x && !p x))
        = l.countP (fun x => q x && p x) + l.countP (fun x => q x && !p x) := by
      refine length_filter_or_disjoint l _ _ ?_
      intro x _
      rcases hb : p x with _ | _ <;> simp [hb]
    have h3 : l.countP (fun x => q x && p x) = l.countP p := by
      refine List.countP_congr ?_
      intro x hx
      rcases hb : p x with _ | _
      · simp [hb]
      · have hqx := himp x hx hb
        simp [hb, hqx]
    rw [h1, h2, h3]
  have hzero : l.countP (fun x => q x && !p x) = 0 := by omega
  have := List.countP_eq_zero.1 hzero a ha
  simp [hq, hp] at this

lemma exists_of_countP_lt {α : Type} {l : List α} {p q : α → Bool}
    (hlt : l.countP p < l.countP q) : ∃ a ∈ l, q a = true ∧ p a = false := by
  by_contra h
  push_neg at h
  have hle : l.countP q ≤ l.countP p := by
    refine List.countP_mono_left ?_
    intro x hx hq
    have := h x hx hq
    rcases hb : p x with _ | _
    · exact absurd hb this
    · rfl
  omega

lemma inDeg_eq_countP (g : Graph) (v : String) :
    inDeg g v = (g.edges.countP (fun e => e.«to» == v) : Int) := by
  unfold inDeg
  rw [List.countP_eq_length_filter]

lemma inFrom_le_inDeg (g : Graph) (S : List String) (v : String) :
    (inFrom g S v : Int) ≤ inDeg g v := by
  rw [inDeg_eq_countP]
  have : inFrom g S v ≤ g.edges.countP (fun e => e.«to» == v) := by
    refine List.countP_mono_left ?_
    intro e _ he
    exact (Bool.and_eq_true _ _ ▸ he).1
  exact_mod_cast this

lemma count_outList (g : Graph) (node v : String) :
    (outList g node).count v
      = g.edges.countP (fun e => e.«to» == v && e.«from» == node) := by
  unfold outList
  rw [List.count_eq_countP, List.countP_map, List.countP_filter]
  rfl

lemma inFrom_append_singleton (g : Graph) (S : List String) (node v : String)
    (hns : node ∉ S) :
    inFrom g (S ++ [node]) v = inFrom g S v + (outList g node).count v := by
  rw [count_outList]
  unfold inFrom
  rw [← length_filter_or_disjoint]
  · refine List.countP_congr ?_
    intro e _
    simp only [Bool.and_eq_true, Bool.or_eq_true, decide_eq_true_eq, List.mem_append,
      List.mem_singleton, beq_iff_eq]
    constructor
    · rintro ⟨ht, hf | hf⟩
      · exact Or.inl ⟨ht, hf⟩
      · exact Or.inr ⟨ht, hf⟩
    · rintro (⟨ht, hf⟩ | ⟨ht, hf⟩)
      · exact ⟨ht, Or.inl hf⟩
      · exact ⟨ht, Or.inr hf⟩
  · intro e _
    rintro ⟨h1, h2⟩
    simp only [Bool.and_eq_true, decide_eq_true_eq, beq_iff_eq] at h1 h2
    exact hns (h2.2 ▸ h1.2)

lemma inFrom_nil (g : Graph) (v : String) : inFrom g [] v = 0 := by
  unfold inFrom
  rw [List.countP_eq_length_filter, List.length_eq_zero, List.filter_eq_nil_iff]
  intro e _
  simp

lemma inDeg_zero_no_in_edges {g : Graph} {v : String} (h : inDeg g v = 0) :
    ∀ e ∈ g.edges, e.«to» ≠ v := by
  unfold inDeg at h
  intro e he ht
  have : e ∈ g.edges.filter (fun e => e.«to» == v) :=
    List.mem_filter.2 ⟨he, by simp [ht]⟩
  rcases hf : g.edges.filter (fun e => e.«to» == v) with _ | ⟨x, xs⟩
  · rw [hf] at this; exact List.not_mem_nil e this
  · rw [hf] at h
    simp only [List.length_cons] at h
    omega

/-! ### Nodup subset bounds -/

lemma nodup_subset_length_le {l m : List String} (hl : l.Nodup)
    (hsub : ∀ x ∈ l, x ∈ m) : l.length ≤ m.length := by
  calc l.length = l.toFinset.card := (List.toFinset_card_of_nodup hl).symm
    _ ≤ m.toFinset.card := Finset.card_le_card (fun x hx =>
        List.mem_toFinset.2 (hsub x (List.mem_toFinset.1 hx)))
    _ ≤ m.length := List.toFinset_card_le m

lemma nodup_subset_full {l m : List String} (hl : l.Nodup) (hm : m.Nodup)
    (hsub : ∀ x ∈ l, x ∈ m) (hlen : m.length ≤ l.length) : ∀ x ∈ m, x ∈ l := by
  have hcards : m.toFinset ⊆ l.toFinset := by
    refine Finset.eq_of_subset_of_card_le
      (fun x hx => List.mem_toFinset.2 (hsub x (List.mem_toFinset.1 hx))) ?_ ▸
      Finset.Subset.refl _
    rw [List.toFinset_card_of_nodup hl, List.toFinset_card_of_nodup hm]
    exact hlen
  intro x hx
  exact List.mem_toFinset.1 (hcards (List.mem_toFinset.2 hx))

lemma mem_take_indexOf_lt :
    ∀ (l : List String) (j : Nat) (x : String), x ∈ l.take j → l.indexOf x < j := by
  intro l
  induction l with
  | nil => intro j x hx; rw [List.take_nil] at hx; exact absurd hx (List.not_mem_nil x)
  | cons a l ih =>
    intro j x hx
    cases j with
    | zero => exact absurd hx (List.not_mem_nil x)
    | succ k =>
      rw [List.take_succ_cons] at hx
      rcases List.mem_cons.1 hx with rfl | hx'
      · rw [List.indexOf_cons_self]; exact Nat.succ_pos k
      · by_cases hax : x = a
        · subst hax; rw [List.indexOf_cons_self]; exact Nat.succ_pos k
        · rw [List.indexOf_cons_ne _ (fun h => hax h.symm)]
          exact Nat.succ_lt_succ (ih k x hx')

/-! ### A nonempty set closed under predecessors contains a cycle -/

lemma no_cyclicWalk_of_no_edges {g : Graph} (he : g.edges = []) (c : List String) :
    ¬ IsCyclicWalk g c := by
  intro hc
  match c with
  | [] => exact hc
  | a :: rest =>
    have hch : List.Chain (stepRel g) a (rest ++ [a]) := hc
    obtain ⟨e, hee, -⟩ := chain_source hch (by simp)
    rw [he] at hee
    exact List.not_mem_nil e hee

lemma cycle_of_closing {g : Graph} {p s t : List String} {u : String}
    (hch : List.Chain' (stepRel g) p) (hsplit : p = s ++ u :: t)
    (hclose : ∀ y ∈ p.head?, stepRel g u y) :
    ∃ c, IsCyclicWalk g c := by
  refine ⟨s ++ [u], isCyclicWalk_of_parts (by simp) ?_ ?_⟩
  · have htake : s ++ [u] = p.take (s.length + 1) := by
      rw [hsplit, List.take_append_eq_append_take,
        List.take_of_length_le (Nat.le_succ _),
        show s.length + 1 - s.length = 1 from by omega]
      rfl
    rw [htake]
    exact hch.take _
  · intro x hx y hy
    have hx' : x = u := by
      rw [List.getLast?_concat, Option.mem_def, Option.some_inj] at hx
      exact hx.symm
    have hy' : y ∈ p.head? := by
      rw [hsplit, List.head?_append]
      rw [List.head?_append] at hy
      simpa using hy
    rw [hx']
    exact hclose y hy'

lemma cycle_of_pred_closed_aux {g : Graph} {M : List String}
    (hpred : ∀ v ∈ M, ∃ u ∈ M, stepRel g u v) :
    ∀ (n : Nat) (p : List String), p ≠ [] → List.Chain' (stepRel g) p → p.Nodup →
      (∀ x ∈ p, x ∈ M) → M.length + 1 ≤ n + p.length → ∃ c, IsCyclicWalk g c := by
  intro n
  induction n with
  | zero =>
    intro p _ _ hnd hsub hlen
    exfalso
    have := nodup_subset_length_le hnd hsub
    omega
  | succ n ih =>
    intro p hp hch hnd hsub hlen
    match p, hp, hch, hnd, hsub, hlen with
    | h :: pt, _, hch, hnd, hsub, hlen =>
      obtain ⟨u, huM, hustep⟩ := hpred h (hsub h (List.mem_cons_self _ _))
      by_cases hup : u ∈ h :: pt
      · obtain ⟨s, t, hst⟩ := List.append_of_mem hup
        refine cycle_of_closing hch hst ?_
        intro y hy
        simp only [List.head?_cons, Option.mem_def, Option.some_inj] at hy
        rw [← hy]
        exact hustep
      · refine ih (u :: h :: pt) (by simp) ?_ (by rw [List.nodup_cons]; exact ⟨hup, hnd⟩) ?_ ?_
        · rw [List.chain'_cons']
          refine ⟨?_, hch⟩
          intro y hy
          simp only [List.head?_cons, Option.mem_def, Option.some_inj] at hy
          rw [← hy]
          exact hustep
        · intro x hx
          rcases List.mem_cons.1 hx with rfl | hx'
          · exact huM
          · exact hsub x hx'
        · simp only [List.length_cons] at hlen ⊢
          omega

lemma cycle_of_pred_closed {g : Graph} {M : List String} (hne : M ≠ [])
    (hpred : ∀ v ∈ M, ∃ u ∈ M, stepRel g u v) : ∃ c, IsCyclicWalk g c := by
  obtain ⟨v0, hv0⟩ := List.exists_mem_of_ne_nil M hne
  refine cycle_of_pred_closed_aux hpred M.length [v0] (by simp)
    (List.chain'_singleton v0) (List.nodup_singleton v0) ?_ (by simp)
  intro x hx
  rw [List.mem_singleton] at hx
  exact hx ▸ hv0

/-! ### Kahn scan invariant -/

/-- Invariant of the neighbor scan of Kahn's loop: `sorted'` already includes
the node being expanded, `rem` is the suffix of its neighbor list still to be
processed, and every in-degree counter equals the true in-degree minus the
decrements received so far (in-edges from expanded sources, minus those whose
decrement is still pending in `rem`). -/
def ScanInv (g : Graph) (sorted' rem queue : List String) (deg : String → Int) : Prop :=
  (sorted' ++ queue).Nodup ∧
  (∀ v ∈ sorted' ++ queue, v ∈ kahnKeys g) ∧
  (∀ v ∈ sorted' ++ queue, deg v ≤ 0) ∧
  (∀ v, deg v = inDeg g v - (inFrom g sorted' v : Int) + (rem.count v : Int)) ∧
  (∀ v ∈ queue, ∀ e ∈ g.edges, e.«to» = v → e.«from» ∈ sorted') ∧
  (∀ v ∈ kahnKeys g, v ∉ sorted' → v ∉ queue → 1 ≤ deg v) ∧
  (∀ v ∈ rem, v ∈ kahnKeys g)

lemma kahnStep_cons (nb : String) (rest queue : List String) (deg : String → Int) :
    kahnStep (nb :: rest) queue deg
      = if deg nb - 1 = 0
        then kahnStep rest (queue ++ [nb]) (fun x => if x = nb then deg nb - 1 else deg x)
        else kahnStep rest queue (fun x => if x = nb then deg nb - 1 else deg x) := rfl

lemma inDeg_nonneg (g : Graph) (v : String) : 0 ≤ inDeg g v := by
  unfold inDeg
  positivity

lemma kahnStep_spec (g : Graph) (sorted' : List String) :
    ∀ (rem queue : List String) (deg : String → Int),
      ScanInv g sorted' rem queue deg →
      ScanInv g sorted' [] (kahnStep rem queue deg).1 (kahnStep rem queue deg).2 ∧
      (∃ add, (kahnStep rem queue deg).1 = queue ++ add) := by
  intro rem
  induction rem with
  | nil =>
    intro queue deg h
    exact ⟨h, [], by simp [kahnStep]⟩
  | cons nb rest ih =>
    intro queue deg h
    obtain ⟨h1, h2, h3, h4, h5, h6, h7⟩ := h
    have hnbk : nb ∈ kahnKeys g := h7 nb (List.mem_cons_self _ _)
    have hrestk : ∀ v ∈ rest, v ∈ kahnKeys g := fun v hv => h7 v (List.mem_cons_of_mem _ hv)
    rw [kahnStep_cons]
    by_cases hd : deg nb - 1 = 0
    · rw [if_pos hd]
      have hdeg1 : deg nb = 1 := by omega
      have hnbout : nb ∉ sorted' ++ queue := by
        intro hmem
        have := h3 nb hmem
        omega
      have hkey : inDeg g nb - (inFrom g sorted' nb : Int) + ((nb :: rest).count nb : Int) = 1 := by
        rw [← h4]; exact hdeg1
      have hcnt : (nb :: rest).count nb = rest.count nb + 1 := List.count_cons_self nb rest
      have hfacts : inDeg g nb = (inFrom g sorted' nb : Int) ∧ rest.count nb = 0 := by
        have hle := inFrom_le_inDeg g sorted' nb
        rw [hcnt] at hkey
        constructor
        · omega
        · omega
      have hnbin : ∀ e ∈ g.edges, e.«to» = nb → e.«from» ∈ sorted' := by
        have hcp : g.edges.countP (fun e => e.«to» == nb)
            ≤ g.edges.countP (fun e => e.«to» == nb && decide (e.«from» ∈ sorted')) := by
          have h0 : (g.edges.countP (fun e => e.«to» == nb) : Int)
              = (g.edges.countP (fun e => e.«to» == nb && decide (e.«from» ∈ sorted')) : Int) := by
            rw [← inDeg_eq_countP]
            exact hfacts.1
          exact_mod_cast Int.le_of_eq h0
        intro e he ht
        have := mem_of_countP_eq (l := g.edges)
          (p := fun e => e.«to» == nb && decide (e.«from» ∈ sorted'))
          (q := fun e => e.«to» == nb)
          (fun a _ ha => (Bool.and_eq_true _ _ ▸ ha).1) hcp e he (by simp [ht])
        simp only [Bool.and_eq_true, decide_eq_true_eq] at this
        exact this.2
      have hscan : ScanInv g sorted' rest (queue ++ [nb])
          (fun x => if x = nb then deg nb - 1 else deg x) := by
        refine ⟨?_, ?_, ?_, ?_, ?_, ?_, hrestk⟩
        · rw [← List.append_assoc, List.nodup_append]
          refine ⟨h1, List.nodup_singleton nb, ?_⟩
          intro x hx
          rw [List.mem_singleton]
          intro hxe
          exact hnbout (hxe ▸ hx)
        · intro v hv
          rw [← List.append_assoc, List.mem_append, List.mem_singleton] at hv
          rcases hv with hv | rfl
          · exact h2 v hv
          · exact hnbk
        · intro v hv
          rw [← List.append_assoc, List.mem_append, List.mem_singleton] at hv
          show (if v = nb then deg nb - 1 else deg v) ≤ 0
          by_cases hvn : v = nb
          · rw [if_pos hvn]
            omega
          · rw [if_neg hvn]
            rcases hv with hv | hv
            · exact h3 v hv
            · exact absurd hv hvn
        · intro v
          show (if v = nb then deg nb - 1 else deg v)
            = inDeg g v - (inFrom g sorted' v : Int) + (rest.count v : Int)
          by_cases hvn : v = nb
          · rw [if_pos hvn, hvn]
            have hf1 := hfacts.1
            have hf2 : (rest.count nb : Int) = 0 := by exact_mod_cast hfacts.2
            omega
          · rw [if_neg hvn, h4 v]
            have : (nb :: rest).count v = rest.count v := List.count_cons_of_ne hvn rest
            rw [this]
        · intro v hv
          rw [List.mem_append, List.mem_singleton] at hv
          rcases hv with hv | rfl
          · exact h5 v hv
          · exact hnbin
        · intro v hvk hvs hvq
          have hvn : v ≠ nb := by
            intro h
            exact hvq (h ▸ List.mem_append.2 (Or.inr (List.mem_singleton.2 rfl)))
          show 1 ≤ (if v = nb then deg nb - 1 else deg v)
          rw [if_neg hvn]
          exact h6 v hvk hvs (fun h => hvq (List.mem_append.2 (Or.inl h)))
      obtain ⟨hinv, add, hadd⟩ := ih (queue ++ [nb]) _ hscan
      exact ⟨hinv, [nb] ++ add, by rw [hadd, List.append_assoc]⟩
    · rw [if_neg hd]
      have hscan : ScanInv g sorted' rest queue
          (fun x => if x = nb then deg nb - 1 else deg x) := by
        refine ⟨h1, h2, ?_, ?_, h5, ?_, hrestk⟩
        · intro v hv
          show (if v = nb then deg nb - 1 else deg v) ≤ 0
          by_cases hvn : v = nb
          · rw [if_pos hvn]
            have hdv := h3 _ hv
            rw [hvn] at hdv
            omega
          · rw [if_neg hvn]
            exact h3 v hv
        · intro v
          show (if v = nb then deg nb - 1 else deg v)
            = inDeg g v - (inFrom g sorted' v : Int) + (rest.count v : Int)
          by_cases hvn : v = nb
          · rw [if_pos hvn, hvn, h4 nb, List.count_cons_self]
            push_cast
            omega
          · rw [if_neg hvn, h4 v, List.count_cons_of_ne hvn rest]
        · intro v hvk hvs hvq
          show 1 ≤ (if v = nb then deg nb - 1 else deg v)
          by_cases hvn : v = nb
          · rw [if_pos hvn]
            have hdv := h6 _ hvk hvs hvq
            rw [hvn] at hdv
            omega
          · rw [if_neg hvn]
            exact h6 v hvk hvs hvq
      exact ih queue _ hscan

/-- `in_degree` keys and DFS universe coincide: declared nodes plus edge targets. -/
lemma kahnKeys_eq_dfsUniv (g : Graph) : kahnKeys g = dfsUniv g := rfl

/-- Loop invariant of Kahn's algorithm: dequeued and queued nodes are distinct
keys with exhausted counters; counters record in-degree minus decrements from
expanded sources; in-edges of emitted nodes come from strictly earlier emitted
nodes; queued nodes' in-edges come from emitted nodes; and keys neither
emitted nor queued still have a positive counter. -/
def KahnInv (g : Graph) (queue sorted : List String) (deg : String → Int) : Prop :=
  (sorted ++ queue).Nodup ∧
  (∀ v ∈ sorted ++ queue, v ∈ kahnKeys g) ∧
  (∀ v ∈ sorted ++ queue, deg v ≤ 0) ∧
  (∀ v, deg v = inDeg g v - (inFrom g sorted v : Int)) ∧
  (∀ j (hj : j < sorted.length), ∀ e ∈ g.edges, e.«to» = sorted.get ⟨j, hj⟩ →
    e.«from» ∈ sorted.take j) ∧
  (∀ v ∈ queue, ∀ e ∈ g.edges, e.«to» = v → e.«from» ∈ sorted) ∧
  (∀ v ∈ kahnKeys g, v ∉ sorted → v ∉ queue → 1 ≤ deg v)

lemma kahnLoop_cons (g : Graph) (fuel : Nat) (node : String) (rest : List String)
    (deg : String → Int) (sorted : List String) :
    kahnLoop g (fuel + 1) (node :: rest) deg sorted
      = kahnLoop g fuel (kahnStep (outList g node) rest deg).1
          (kahnStep (outList g node) rest deg).2 (sorted ++ [node]) := by
  rcases h : adjGetC g node with _ | nbrs
  · simp only [kahnLoop, h, outList_eq_nil_of_adjGetC_none h, kahnStep]
  · simp only [kahnLoop, h, ← adjGetC_some_eq h]

lemma kahnLoop_spec (g : Graph) :
    ∀ (fuel : Nat) (queue : List String) (deg : String → Int) (sorted : List String),
      KahnInv g queue sorted deg →
      (kahnKeys g).length ≤ fuel + sorted.length →
      ∃ degF, KahnInv g [] (kahnLoop g fuel queue deg sorted) degF := by
  intro fuel
  induction fuel with
  | zero =>
    intro queue deg sorted hinv hlen
    obtain ⟨h1, h2, h3, h4, h5, h6, h7⟩ := hinv
    have hsplit := List.nodup_append.1 h1
    have hsub : ∀ x ∈ sorted, x ∈ kahnKeys g :=
      fun x hx => h2 x (List.mem_append.2 (Or.inl hx))
    have hlen2 : (kahnKeys g).length ≤ sorted.length := by simpa using hlen
    have hq : queue = [] := by
      rcases hqe : queue with _ | ⟨q, qs⟩
      · rfl
      · exfalso
        subst hqe
        have hqk : q ∈ kahnKeys g :=
          h2 q (List.mem_append.2 (Or.inr (List.mem_cons_self _ _)))
        have hqsorted : q ∈ sorted :=
          nodup_subset_full hsplit.1 (List.nodup_dedup _) hsub hlen2 q hqk
        exact hsplit.2.2 hqsorted (List.mem_cons_self _ _)
    subst hq
    exact ⟨deg, h1, h2, h3, h4, h5, h6, h7⟩
  | succ fuel ih =>
    intro queue deg sorted hinv hlen
    rcases queue with _ | ⟨node, rest⟩
    · refine ⟨deg, ?_⟩
      show KahnInv g [] sorted deg
      simpa [KahnInv] using hinv
    · obtain ⟨h1, h2, h3, h4, h5, h6, h7⟩ := hinv
      have hnodek : node ∈ kahnKeys g :=
        h2 node (List.mem_append.2 (Or.inr (List.mem_cons_self _ _)))
      have hnode_ns : node ∉ sorted := by
        intro h
        exact (List.nodup_append.1 h1).2.2 h (List.mem_cons_self _ _)
      have happ : sorted ++ node :: rest = (sorted ++ [node]) ++ rest := by simp
      have hscan0 : ScanInv g (sorted ++ [node]) (outList g node) rest deg := by
        refine ⟨?_, ?_, ?_, ?_, ?_, ?_, ?_⟩
        · rw [← happ]; exact h1
        · intro v hv; rw [← happ] at hv; exact h2 v hv
        · intro v hv; rw [← happ] at hv; exact h3 v hv
        · intro v
          rw [h4 v, inFrom_append_singleton g sorted node v hnode_ns]
          push_cast
          ring
        · intro v hv e he ht
          exact List.mem_append.2 (Or.inl (h6 v (List.mem_cons_of_mem _ hv) e he ht))
        · intro v hvk hvs hvq
          refine h7 v hvk (fun h => hvs (List.mem_append.2 (Or.inl h))) ?_
          intro h
          rcases List.mem_cons.1 h with rfl | h'
          · exact hvs (List.mem_append.2 (Or.inr (List.mem_singleton.2 rfl)))
          · exact hvq h'
        · intro v hv
          rw [kahnKeys_eq_dfsUniv]
          exact mem_dfsUniv_of_step (mem_outList.1 hv)
      obtain ⟨⟨s1, s2, s3, s4, s5, s6, s7⟩, add, hadd⟩ :=
        kahnStep_spec g (sorted ++ [node]) (outList g node) rest deg hscan0
      rw [kahnLoop_cons]
      refine ih _ _ _ ⟨s1, s2, s3, ?_, ?_, s5, s6⟩ ?_
      · intro v
        have := s4 v
        simpa using this
      · intro j hj e he ht
        by_cases hjl : j < sorted.length
        · have hget : (sorted ++ [node]).get ⟨j, hj⟩ = sorted.get ⟨j, hjl⟩ := by
            rw [List.get_append j hjl]
          rw [hget] at ht
          have hmem := h5 j hjl e he ht
          rw [List.take_append_eq_append_take]
          exact List.mem_append.2 (Or.inl hmem)
        · have hje : j = sorted.length := by
            simp only [List.length_append, List.length_singleton] at hj
            omega
          subst hje
          have hget : (sorted ++ [node]).get ⟨sorted.length, hj⟩ = node := by
            rw [List.get_eq_getElem, List.getElem_append_right (Nat.le_refl _)]
            simp
          rw [hget] at ht
          have hmem := h6 node (List.mem_cons_self _ _) e he ht
          rw [List.take_left]
          exact hmem
      · simp only [List.length_append, List.length_singleton]
        omega

lemma kahn_initial (g : Graph) :
    KahnInv g ((kahnKeys g).filter (fun v => inDeg g v == 0)) [] (fun v => inDeg g v) := by
  refine ⟨?_, ?_, ?_, ?_, ?_, ?_, ?_⟩
  · simpa using List.Nodup.filter _ (List.nodup_dedup _)
  · intro v hv
    rw [List.nil_append] at hv
    exact (List.mem_filter.1 hv).1
  · intro v hv
    rw [List.nil_append] at hv
    have := (List.mem_filter.1 hv).2
    rw [beq_iff_eq] at this
    show inDeg g v ≤ 0
    omega
  · intro v
    rw [inFrom_nil]
    simp
  · intro j hj
    exact absurd hj (by simp)
  · intro v hv e he ht
    have := (List.mem_filter.1 hv).2
    rw [beq_iff_eq] at this
    exact absurd ht (inDeg_zero_no_in_edges this e he)
  · intro v hvk _ hvq
    have hne : ¬ (inDeg g v == 0) = true := by
      intro h
      exact hvq (List.mem_filter.2 ⟨hvk, h⟩)
    rw [beq_iff_eq] at hne
    have := inDeg_nonneg g v
    show 1 ≤ inDeg g v
    omega

lemma topo_sorted_inv (g : Graph) :
    ∃ degF, KahnInv g [] (compute_topological_sort g).sorted degF := by
  have h := kahnLoop_spec g (kahnKeys g).length
    ((kahnKeys g).filter (fun v => inDeg g v == 0)) (fun v => inDeg g v) []
    (kahn_initial g) (by simp)
  exact h

lemma mem_kahnKeys_of_node {g : Graph} {n : String} (h : n ∈ g.nodes) :
    n ∈ kahnKeys g := by
  rw [kahnKeys_eq_dfsUniv]
  exact mem_dfsUniv_of_node h

lemma kahnKeys_mem_iff {g : Graph} (hwf : ∀ e ∈ g.edges, e.«from» ∈ g.nodes ∧ e.«to» ∈ g.nodes) :
    ∀ x, x ∈ kahnKeys g ↔ x ∈ g.nodes := by
  intro x
  unfold kahnKeys
  rw [List.mem_dedup, List.mem_append]
  constructor
  · rintro (h | h)
    · exact h
    · obtain ⟨e, he, ht⟩ := List.mem_map.1 h
      exact ht ▸ (hwf e he).2
  · exact Or.inl

lemma kahnKeys_length_eq {g : Graph} (hnd : g.nodes.Nodup)
    (hwf : ∀ e ∈ g.edges, e.«from» ∈ g.nodes ∧ e.«to» ∈ g.nodes) :
    (kahnKeys g).length = g.nodes.length := by
  refine List.Perm.length_eq ?_
  refine (List.perm_ext_iff_of_nodup (List.nodup_dedup _) hnd).2 ?_
  exact kahnKeys_mem_iff hwf

lemma kahn_missing_pred {g : Graph} {sortedF : List String} {degF : String → Int}
    (hinv : KahnInv g [] sortedF degF) {v : String}
    (hvk : v ∈ kahnKeys g) (hvs : v ∉ sortedF) :
    ∃ e ∈ g.edges, e.«to» = v ∧ e.«from» ∉ sortedF := by
  have hdeg : 1 ≤ degF v := hinv.2.2.2.2.2.2 v hvk hvs (List.not_mem_nil v)
  have hd := hinv.2.2.2.1 v
  have hlt : (inFrom g sortedF v : Int) < inDeg g v := by omega
  have hltn : g.edges.countP (fun e => e.«to» == v && decide (e.«from» ∈ sortedF))
      < g.edges.countP (fun e => e.«to» == v) := by
    have h2 : (g.edges.countP (fun e => e.«to» == v) : Int) = inDeg g v :=
      (inDeg_eq_countP g v).symm
    have h3 : inFrom g sortedF v
        = g.edges.countP (fun e => e.«to» == v && decide (e.«from» ∈ sortedF)) := rfl
    rw [← h3]
    exact_mod_cast hlt.trans_eq h2.symm
  obtain ⟨e, he, hq, hp⟩ := exists_of_countP_lt hltn
  rw [beq_iff_eq] at hq
  refine ⟨e, he, hq, ?_⟩
  intro hmem
  rw [Bool.and_eq_false_iff] at hp
  rcases hp with hp | hp
  · rw [hq] at hp
    simp at hp
  · simp only [decide_eq_false_iff_not] at hp
    exact hp hmem

lemma kahn_short_cycle {g : Graph} {sortedF : List String} {degF : String → Int}
    (hwf : ∀ e ∈ g.edges, e.«from» ∈ g.nodes ∧ e.«to» ∈ g.nodes)
    (hinv : KahnInv g [] sortedF degF)
    (hshort : ∃ v ∈ kahnKeys g, v ∉ sortedF) : ∃ c, IsCyclicWalk g c := by
  obtain ⟨v0, hv0k, hv0s⟩ := hshort
  refine cycle_of_pred_closed (M := (kahnKeys g).filter (fun v => decide (v ∉ sortedF))) ?_ ?_
  · intro h
    have : v0 ∈ (kahnKeys g).filter (fun v => decide (v ∉ sortedF)) :=
      List.mem_filter.2 ⟨hv0k, by simpa using hv0s⟩
    rw [h] at this
    exact List.not_mem_nil v0 this
  · intro v hv
    obtain ⟨hvk, hvs⟩ := List.mem_filter.1 hv
    rw [decide_eq_true_eq] at hvs
    obtain ⟨e, he, ht, hf⟩ := kahn_missing_pred hinv hvk hvs
    refine ⟨e.«from», List.mem_filter.2 ⟨mem_kahnKeys_of_node (hwf e he).1, by simpa using hf⟩,
      e, he, rfl, ht⟩

lemma kahn_full_no_cycle {g : Graph} {sortedF : List String} {degF : String → Int}
    (hwf : ∀ e ∈ g.edges, e.«from» ∈ g.nodes ∧ e.«to» ∈ g.nodes)
    (hinv : KahnInv g [] sortedF degF)
    (hfull : ∀ x ∈ kahnKeys g, x ∈ sortedF) {c : List String}
    (hc : IsCyclicWalk g c) : False := by
  have hnd : sortedF.Nodup := by
    have := hinv.1
    rwa [List.append_nil] at this
  have hstep : ∀ u w, u ∈ sortedF → stepRel g u w →
      w ∈ sortedF ∧ sortedF.indexOf u < sortedF.indexOf w := by
    rintro u w hu ⟨e, he, hf, ht⟩
    have hw : w ∈ sortedF := hfull w (mem_kahnKeys_of_node (ht ▸ (hwf e he).2))
    have hj : sortedF.indexOf w < sortedF.length := List.indexOf_lt_length.2 hw
    have hget : sortedF.get ⟨sortedF.indexOf w, hj⟩ = w := List.indexOf_get hj
    have hmem := hinv.2.2.2.2.1 (sortedF.indexOf w) hj e he (by rw [hget]; exact ht)
    rw [hf] at hmem
    exact ⟨hw, mem_take_indexOf_lt sortedF _ u hmem⟩
  refine no_cyclicWalk_of_increasing hstep hc ?_
  intro x hx
  obtain ⟨e, he, hor⟩ := isCyclicWalk_mem_endpoints hc x hx
  rcases hor with h1 | h1
  · exact hfull x (mem_kahnKeys_of_node (h1 ▸ (hwf e he).1))
  · exact hfull x (mem_kahnKeys_of_node (h1 ▸ (hwf e he).2))

lemma kahnKeys_nodup (g : Graph) : (kahnKeys g).Nodup := List.nodup_dedup _

lemma kahn_full_forward {g : Graph} {sortedF : List String} {degF : String → Int}
    (hwf : ∀ e ∈ g.edges, e.«from» ∈ g.nodes ∧ e.«to» ∈ g.nodes)
    (hinv : KahnInv g [] sortedF degF)
    (hfull : ∀ x ∈ kahnKeys g, x ∈ sortedF) :
    ∀ u w, u ∈ sortedF → stepRel g u w →
      w ∈ sortedF ∧ sortedF.indexOf u < sortedF.indexOf w := by
  rintro u w hu ⟨e, he, hf, ht⟩
  have hw : w ∈ sortedF := hfull w (mem_kahnKeys_of_node (ht ▸ (hwf e he).2))
  have hj : sortedF.indexOf w < sortedF.length := List.indexOf_lt_length.2 hw
  have hget : sortedF.get ⟨sortedF.indexOf w, hj⟩ = w := List.indexOf_get hj
  have hmem := hinv.2.2.2.2.1 (sortedF.indexOf w) hj e he (by rw [hget]; exact ht)
  rw [hf] at hmem
  exact ⟨hw, mem_take_indexOf_lt sortedF _ u hmem⟩

/-- C4 (amended): for every graph with duplicate-free node list whose edge
endpoints all appear in it, `compute_topological_sort` reports
`has_cycle = true` (definitionally: the sorted output is shorter than the
node list) exactly when the graph contains a directed cycle. -/
theorem c4_topo_has_cycle_iff_wf (g : Graph) (hnd : g.nodes.Nodup)
    (hwf : ∀ e ∈ g.edges, e.«from» ∈ g.nodes ∧ e.«to» ∈ g.nodes) :
    (compute_topological_sort g).has_cycle = true ↔ ∃ c, IsCyclicWalk g c := by
  obtain ⟨degF, hinv⟩ := topo_sorted_inv g
  have hsnd : (compute_topological_sort g).sorted.Nodup := by
    have := hinv.1
    rwa [List.append_nil] at this
  have hsub : ∀ x ∈ (compute_topological_sort g).sorted, x ∈ kahnKeys g := by
    intro x hx
    exact hinv.2.1 x (by rwa [List.append_nil])
  have hklen := kahnKeys_length_eq hnd hwf
  constructor
  · intro h
    have hlt : (compute_topological_sort g).sorted.length < g.nodes.length :=
      of_decide_eq_true h
    have hshort : ∃ v ∈ kahnKeys g, v ∉ (compute_topological_sort g).sorted := by
      by_contra hall
      push_neg at hall
      have := nodup_subset_length_le (kahnKeys_nodup g) hall
      omega
    exact kahn_short_cycle hwf hinv hshort
  · rintro ⟨c, hc⟩
    by_contra h
    have hnlt : ¬ (compute_topological_sort g).sorted.length < g.nodes.length := by
      intro hlt
      exact h (decide_eq_true hlt)
    have hfull : ∀ x ∈ kahnKeys g, x ∈ (compute_topological_sort g).sorted :=
      nodup_subset_full hsnd (kahnKeys_nodup g) hsub (by omega)
    exact kahn_full_no_cycle hwf hinv hfull hc

/-- C4 as stated fails in both directions on degenerate graphs: a self-loop on
an undeclared node is missed (cycle but `has_cycle = false`), and a duplicated
node label makes the sorted output short without any cycle
(`has_cycle = true` but no cycle). -/
theorem c4_counterexample :
    (¬ (((compute_topological_sort ⟨[], [⟨"B", "B", none⟩]⟩).has_cycle = true) ↔
        ∃ c, IsCyclicWalk ⟨[], [⟨"B", "B", none⟩]⟩ c)) ∧
    (¬ (((compute_topological_sort ⟨["A", "A"], []⟩).has_cycle = true) ↔
        ∃ c, IsCyclicWalk ⟨["A", "A"], []⟩ c)) := by
  constructor
  · intro h
    have hcyc : IsCyclicWalk ⟨[], [⟨"B", "B", none⟩]⟩ ["B"] := by
      show List.Chain (stepRel _) "B" ([] ++ ["B"])
      exact List.Chain.cons ⟨⟨"B", "B", none⟩, List.mem_singleton.2 rfl, rfl, rfl⟩
        List.Chain.nil
    exact absurd (h.2 ⟨["B"], hcyc⟩) (by decide)
  · intro h
    obtain ⟨c, hc⟩ := h.1 (by decide)
    exact no_cyclicWalk_of_no_edges rfl c hc

theorem c4_witness :
    (["A", "B"] : List String).Nodup ∧
    ((compute_topological_sort
        ⟨["A", "B"], [⟨"A", "B", none⟩, ⟨"B", "A", none⟩]⟩).has_cycle = true ↔
      ∃ c, IsCyclicWalk ⟨["A", "B"], [⟨"A", "B", none⟩, ⟨"B", "A", none⟩]⟩ c) :=
  ⟨by decide, c4_topo_has_cycle_iff_wf ⟨["A", "B"], [⟨"A", "B", none⟩, ⟨"B", "A", none⟩]⟩
    (by decide) (by decide)⟩

/-- C2 (amended): for every acyclic graph with duplicate-free node list whose
edge endpoints all appear in it, the sorted output is a permutation of the
node list, every edge goes from an earlier to a strictly later position, and
`has_cycle` is false. -/
theorem c2_topological_validity (g : Graph) (hnd : g.nodes.Nodup)
    (hwf : ∀ e ∈ g.edges, e.«from» ∈ g.nodes ∧ e.«to» ∈ g.nodes)
    (hacyc : ¬ ∃ c, IsCyclicWalk g c) :
    (compute_topological_sort g).sorted.Perm g.nodes ∧
    (∀ e ∈ g.edges, (compute_topological_sort g).sorted.indexOf e.«from»
      < (compute_topological_sort g).sorted.indexOf e.«to») ∧
    (compute_topological_sort g).has_cycle = false := by
  obtain ⟨degF, hinv⟩ := topo_sorted_inv g
  have hsnd : (compute_topological_sort g).sorted.Nodup := by
    have := hinv.1
    rwa [List.append_nil] at this
  have hsub : ∀ x ∈ (compute_topological_sort g).sorted, x ∈ kahnKeys g := by
    intro x hx
    exact hinv.2.1 x (by rwa [List.append_nil])
  have hfull : ∀ x ∈ kahnKeys g, x ∈ (compute_topological_sort g).sorted := by
    by_contra hm
    push_neg at hm
    obtain ⟨v, hvk, hvs⟩ := hm
    exact hacyc (kahn_short_cycle hwf hinv ⟨v, hvk, hvs⟩)
  have hperm : (compute_topological_sort g).sorted.Perm g.nodes := by
    refine (List.perm_ext_iff_of_nodup hsnd hnd).2 ?_
    intro x
    constructor
    · intro hx
      exact (kahnKeys_mem_iff hwf x).1 (hsub x hx)
    · intro hx
      exact hfull x (mem_kahnKeys_of_node hx)
  refine ⟨hperm, ?_, ?_⟩
  · intro e he
    have hu : e.«from» ∈ (compute_topological_sort g).sorted :=
      hfull _ (mem_kahnKeys_of_node (hwf e he).1)
    exact (kahn_full_forward hwf hinv hfull e.«from» e.«to» hu ⟨e, he, rfl, rfl⟩).2
  · show decide ((compute_topological_sort g).sorted.length < g.nodes.length) = false
    rw [hperm.length_eq]
    exact decide_eq_false (Nat.lt_irrefl _)

/-- C2 as stated fails on degenerate graphs: an acyclic edge from an
undeclared node makes `has_cycle` true, and a duplicated node label makes the
sorted output no permutation of the node list. -/
theorem c2_counterexample :
    ((¬ ∃ c, IsCyclicWalk ⟨["B"], [⟨"A", "B", none⟩]⟩ c) ∧
      (compute_topological_sort ⟨["B"], [⟨"A", "B", none⟩]⟩).has_cycle = true) ∧
    ((¬ ∃ c, IsCyclicWalk ⟨["A", "A"], []⟩ c) ∧
      ¬ (compute_topological_sort ⟨["A", "A"], []⟩).sorted.Perm ["A", "A"]) := by
  refine ⟨⟨?_, by decide⟩, ?_, ?_⟩
  · rintro ⟨c, hc⟩
    match c with
    | [] => exact hc
    | a :: rest =>
      have hch : List.Chain (stepRel ⟨["B"], [⟨"A", "B", none⟩]⟩) a (rest ++ [a]) := hc
      obtain ⟨e1, he1, ht1⟩ := chain_targets _ _ hch a
        (List.mem_append.2 (Or.inr (List.mem_singleton.2 rfl)))
      obtain ⟨e2, he2, hf2⟩ := chain_source hch (by simp)
      rw [List.mem_singleton] at he1 he2
      subst he1
      subst he2
      exact absurd (hf2.trans ht1.symm) (by decide)
  · rintro ⟨c, hc⟩
    exact no_cyclicWalk_of_no_edges rfl c hc
  · intro hperm
    have hlen := hperm.length_eq
    rw [show (compute_topological_sort ⟨["A", "A"], []⟩).sorted = ["A"] from by decide]
      at hlen
    simp at hlen

theorem c2_witness :
    (["A", "B"] : List String).Nodup ∧
    ((compute_topological_sort ⟨["A", "B"], []⟩).sorted.Perm
        (Graph.mk ["A", "B"] []).nodes ∧
      (∀ e ∈ (Graph.mk ["A", "B"] []).edges,
        (compute_topological_sort ⟨["A", "B"], []⟩).sorted.indexOf e.«from»
          < (compute_topological_sort ⟨["A", "B"], []⟩).sorted.indexOf e.«to») ∧
      (compute_topological_sort ⟨["A", "B"], []⟩).has_cycle = false) :=
  ⟨by decide, c2_topological_validity ⟨["A", "B"], []⟩ (by decide) (by decide)
    (fun ⟨c, hc⟩ => no_cyclicWalk_of_no_edges rfl c hc)⟩

/-! ### C3: BFS returns a hop-shortest path with its accumulated weight -/

lemma isWalk_ne_nil {g : Graph} {a b : String} {p : List String} (h : IsWalk g a b p) :
    p ≠ [] := by
  rintro rfl
  simp [IsWalk] at h

lemma isWalk_cons_cons {g : Graph} {a b x y : String} {rest : List String}
    (h : IsWalk g a b (x :: y :: rest)) :
    x = a ∧ stepRel g x y ∧ IsWalk g y b (y :: rest) := by
  obtain ⟨h1, h2, h3⟩ := h
  rw [List.head?_cons, Option.some_inj] at h1
  rw [List.chain'_cons] at h3
  exact ⟨h1, h3.1, rfl, by rwa [List.getLast?_cons_cons] at h2, h3.2⟩

/-- A walk that starts inside `V` and ends outside it crosses the border: some
member of `V` on the walk has an edge to a non-member, and the prefix up to
the crossing is itself a walk shorter than the whole. -/
lemma walk_exit {g : Graph} {V : List String} :
    ∀ (p : List String) (a b : String), IsWalk g a b p → a ∈ V → b ∉ V →
      ∃ (q : List String) (u w : String), IsWalk g a u q ∧ stepRel g u w ∧
        u ∈ V ∧ w ∉ V ∧ q.length + 1 ≤ p.length := by
  intro p
  induction p with
  | nil => intro a b hw; exact absurd rfl (isWalk_ne_nil hw)
  | cons x rest ih =>
    intro a b hw ha hb
    rcases rest with _ | ⟨y, rest'⟩
    · obtain ⟨h1, h2, -⟩ := hw
      rw [List.head?_cons, Option.some_inj] at h1
      have h2' : x = b := by simpa using h2
      exact absurd (h1 ▸ ha) (h2' ▸ hb)
    · obtain ⟨hxa, hstep, hwalk⟩ := isWalk_cons_cons hw
      by_cases hy : y ∈ V
      · obtain ⟨q, u, w, hq, hs, hu, hwv, hlen⟩ := ih y b hwalk hy hb
        have hq1 := hq.1
        have hq2 := hq.2.1
        have hq3 := hq.2.2
        refine ⟨a :: q, u, w, ⟨rfl, ?_, ?_⟩, hs, hu, hwv, ?_⟩
        · have hrw : (a :: q).getLast? = q.getLast?.or ([a].getLast?) := by
            rw [← List.singleton_append, List.getLast?_append]
          rw [hrw, hq2]
          rfl
        · rw [List.chain'_cons']
          refine ⟨?_, hq3⟩
          intro z hz
          rw [hq1, Option.mem_def, Option.some_inj] at hz
          rw [← hz, ← hxa]
          exact hstep
        · simp only [List.length_cons] at hlen ⊢
          omega
      · refine ⟨[a], a, y, isWalk_singleton g a, ?_, ha, hy, by simp⟩
        rw [← hxa]
        exact hstep

lemma walkWeight_snoc (g : Graph) :
    ∀ (P : List String) (c nb : String), P.getLast? = some c →
      walkWeight g (P ++ [nb]) = walkWeight g P + firstEdgeWeight g c nb := by
  intro P
  induction P with
  | nil => intro c nb h; simp at h
  | cons x rest ih =>
    intro c nb h
    rcases rest with _ | ⟨y, rest'⟩
    · have hxc : x = c := by simpa using h
      subst hxc
      show firstEdgeWeight g x nb + walkWeight g [nb] = walkWeight g [x] + firstEdgeWeight g x nb
      show firstEdgeWeight g x nb + 0 = 0 + firstEdgeWeight g x nb
      ring
    · rw [List.getLast?_cons_cons] at h
      show firstEdgeWeight g x y + walkWeight g ((y :: rest') ++ [nb])
        = (firstEdgeWeight g x y + walkWeight g (y :: rest')) + firstEdgeWeight g c nb
      rw [ih c nb h]
      ring

lemma firstEdgeWeight_of_split {g : Graph} {c nb : String} {w : ℚ}
    {pre rest : List (String × ℚ)}
    (hsplit : outPairs g c = pre ++ (nb, w) :: rest)
    (hpre : ∀ x ∈ pre, x.1 ≠ nb) :
    firstEdgeWeight g c nb = w := by
  unfold firstEdgeWeight
  rw [hsplit, List.find?_append]
  have hnone : pre.find? (fun pr => pr.1 == nb) = none := by
    rw [List.find?_eq_none]
    intro x hx
    simpa using hpre x hx
  rw [hnone]
  simp

lemma mem_bfsUniv_of_pair {g : Graph} {f c nb : String} {w : ℚ}
    (h : (nb, w) ∈ outPairs g c) : nb ∈ bfsUniv g f := by
  obtain ⟨e, he, -, ht, -⟩ := mem_outPairs.1 h
  unfold bfsUniv
  rw [List.mem_dedup, List.mem_cons]
  exact Or.inr (List.mem_map.2 ⟨e, he, ht⟩)

/-- The number of universe nodes the BFS has not yet marked visited. -/
def bfsCount (g : Graph) (f : String) (visited : List String) : Nat :=
  ((bfsUniv g f).filter (fun x => decide (x ∉ visited))).length

lemma bfsCount_le_of_subset {g : Graph} {f : String} {v v' : List String}
    (h : ∀ y ∈ v, y ∈ v') : bfsCount g f v' ≤ bfsCount g f v := by
  refine List.Sublist.length_le (List.monotone_filter_right _ ?_)
  intro a ha
  simp only [decide_eq_true_eq] at ha ⊢
  exact fun hav => ha (h a hav)

lemma bfsCount_lt_of_cons {g : Graph} {f : String} {v : List String} {x : String}
    (hx : x ∈ bfsUniv g f) (hnx : x ∉ v) :
    bfsCount g f (x :: v) < bfsCount g f v := by
  have hsub : ((bfsUniv g f).filter (fun y => decide (y ∉ x :: v))).Sublist
      ((bfsUniv g f).filter (fun y => decide (y ∉ v))) := by
    refine List.monotone_filter_right _ ?_
    intro a ha
    simp only [decide_eq_true_eq, List.mem_cons] at ha ⊢
    exact fun hav => ha (Or.inr hav)
  rcases Nat.lt_or_ge ((bfsUniv g f).filter (fun y => decide (y ∉ x :: v))).length
      ((bfsUniv g f).filter (fun y => decide (y ∉ v))).length with h | h
  · exact h
  · exfalso
    have heq := hsub.eq_of_length (Nat.le_antisymm hsub.length_le h)
    have hx1 : x ∈ (bfsUniv g f).filter (fun y => decide (y ∉ v)) := by
      rw [List.mem_filter]
      exact ⟨hx, by simpa using hnx⟩
    rw [← heq, List.mem_filter] at hx1
    have := hx1.2
    simp only [decide_eq_true_eq, List.mem_cons] at this
    exact this (Or.inl trivial)

lemma mem_bfsUniv_self (g : Graph) (f : String) : f ∈ bfsUniv g f := by
  unfold bfsUniv
  rw [List.mem_dedup]
  exact List.mem_cons_self _ _

lemma enqueueNbrs_spec (g : Graph) (f t c : String) (P : List String) (D : ℚ)
    (hc_walk : IsWalk g f c P) (hc_w : D = walkWeight g P)
    (hc_min : ∀ q, IsWalk g f c q → P.length ≤ q.length) :
    ∀ (pairs pre : List (String × ℚ)) (queue : List (String × List String × ℚ))
      (visited : List String) (q' : List (String × List String × ℚ)) (v' : List String),
      enqueueNbrs pairs queue visited P D = (q', v') →
      outPairs g c = pre ++ pairs →
      (∀ x ∈ pre, x.1 ∈ visited) →
      (∀ x ∈ P, x ∈ visited) →
      f ∈ visited →
      (∀ e ∈ queue, IsWalk g f e.1 e.2.1 ∧ e.2.2 = walkWeight g e.2.1 ∧
        (∀ x ∈ e.2.1, x ∈ visited)) →
      (∀ e ∈ queue, ∀ q, IsWalk g f e.1 q → e.2.1.length ≤ q.length) →
      List.Pairwise (fun a b => a.2.1.length ≤ b.2.1.length) queue →
      (∀ e ∈ queue, P.length ≤ e.2.1.length ∧ e.2.1.length ≤ P.length + 1) →
      (∀ u ∈ visited, u ≠ c → (∀ e ∈ queue, e.1 ≠ u) → ∀ w, stepRel g u w → w ∈ visited) →
      (t ∈ visited → ∃ e ∈ queue, e.1 = t) →
      ((∀ e ∈ q', IsWalk g f e.1 e.2.1 ∧ e.2.2 = walkWeight g e.2.1 ∧
          (∀ x ∈ e.2.1, x ∈ v')) ∧
       (∀ e ∈ q', ∀ q, IsWalk g f e.1 q → e.2.1.length ≤ q.length) ∧
       List.Pairwise (fun a b => a.2.1.length ≤ b.2.1.length) q' ∧
       (∀ e ∈ q', P.length ≤ e.2.1.length ∧ e.2.1.length ≤ P.length + 1) ∧
       (∀ x ∈ visited, x ∈ v') ∧
       (∀ x ∈ pairs, x.1 ∈ v') ∧
       (∀ u ∈ v', u ≠ c → (∀ e ∈ q', e.1 ≠ u) → ∀ w, stepRel g u w → w ∈ v') ∧
       (t ∈ v' → ∃ e ∈ q', e.1 = t) ∧
       q'.length + bfsCount g f v' ≤ queue.length + bfsCount g f visited) := by
  intro pairs
  induction pairs with
  | nil =>
    intro pre queue visited q' v' heq hsplit hpre hP hf h1 h2 h3 h4 h5 h6
    rw [enqueueNbrs] at heq
    obtain ⟨rfl, rfl⟩ := Prod.mk.injEq _ _ _ _ ▸ heq
    exact ⟨h1, h2, h3, h4, fun x hx => hx, fun x hx => absurd hx (List.not_mem_nil x),
      h5, h6, Nat.le_refl _⟩
  | cons pr rest ih =>
    intro pre queue visited q' v' heq hsplit hpre hP hf h1 h2 h3 h4 h5 h6
    obtain ⟨nb, w⟩ := pr
    rw [enqueueNbrs] at heq
    by_cases hnb : nb ∈ visited
    · rw [if_pos hnb] at heq
      have hsplit' : outPairs g c = (pre ++ [(nb, w)]) ++ rest := by
        rw [hsplit, List.append_assoc]
        rfl
      have hpre' : ∀ x ∈ pre ++ [(nb, w)], x.1 ∈ visited := by
        intro x hx
        rcases List.mem_append.1 hx with hx | hx
        · exact hpre x hx
        · rw [List.mem_singleton] at hx
          subst hx
          exact hnb
      obtain ⟨c1, c2, c3, c4, c5, c6, c7, c8, c9⟩ :=
        ih (pre ++ [(nb, w)]) queue visited q' v' heq hsplit' hpre' hP hf h1 h2 h3 h4 h5 h6
      refine ⟨c1, c2, c3, c4, c5, ?_, c7, c8, c9⟩
      intro x hx
      rcases List.mem_cons.1 hx with rfl | hx'
      · exact c5 nb hnb
      · exact c6 x hx'
    · rw [if_neg hnb] at heq
      have hmempair : (nb, w) ∈ outPairs g c := by
        rw [hsplit]
        exact List.mem_append.2 (Or.inr (List.mem_cons_self _ _))
      have hstep_c : stepRel g c nb := stepRel_of_mem_outPairs hmempair
      have hwalk_new : IsWalk g f nb (P ++ [nb]) := isWalk_append_last hc_walk hstep_c
      have hfw : firstEdgeWeight g c nb = w := by
        refine firstEdgeWeight_of_split hsplit ?_
        intro x hx hxe
        exact hnb (hxe ▸ hpre x hx)
      have hweight_new : D + w = walkWeight g (P ++ [nb]) := by
        rw [walkWeight_snoc g P c nb hc_walk.2.1, hc_w, hfw]
      have hmin_new : ∀ q, IsWalk g f nb q → (P ++ [nb]).length ≤ q.length := by
        intro W hW
        obtain ⟨q, u, w', hq, hs, hu, hw', hlen⟩ := walk_exit W f nb hW hf hnb
        by_cases huc : u = c
        · subst huc
          have := hc_min q hq
          simp only [List.length_append, List.length_singleton]
          omega
        · have hqq : ∃ e ∈ queue, e.1 = u := by
            by_contra hno
            push_neg at hno
            exact hw' (h5 u hu huc (fun e he => hno e he) w' hs)
          obtain ⟨e, he, heu⟩ := hqq
          have hmin_e := h2 e he q (heu ▸ hq)
          have hband := (h4 e he).1
          simp only [List.length_append, List.length_singleton]
          omega
      have hsplit' : outPairs g c = (pre ++ [(nb, w)]) ++ rest := by
        rw [hsplit, List.append_assoc]
        rfl
      have hpre' : ∀ x ∈ pre ++ [(nb, w)], x.1 ∈ nb :: visited := by
        intro x hx
        rcases List.mem_append.1 hx with hx | hx
        · exact List.mem_cons_of_mem _ (hpre x hx)
        · rw [List.mem_singleton] at hx
          subst hx
          exact List.mem_cons_self _ _
      have h1' : ∀ e ∈ queue ++ [(nb, P ++ [nb], D + w)],
          IsWalk g f e.1 e.2.1 ∧ e.2.2 = walkWeight g e.2.1 ∧
          (∀ x ∈ e.2.1, x ∈ nb :: visited) := by
        intro e he
        rcases List.mem_append.1 he with he | he
        · obtain ⟨ha, hb, hcc⟩ := h1 e he
          exact ⟨ha, hb, fun x hx => List.mem_cons_of_mem _ (hcc x hx)⟩
        · rw [List.mem_singleton] at he
          subst he
          refine ⟨hwalk_new, hweight_new, ?_⟩
          intro x hx
          rcases List.mem_append.1 hx with hx | hx
          · exact List.mem_cons_of_mem _ (hP x hx)
          · rw [List.mem_singleton] at hx
            subst hx
            exact List.mem_cons_self _ _
      have h2' : ∀ e ∈ queue ++ [(nb, P ++ [nb], D + w)],
          ∀ q, IsWalk g f e.1 q → e.2.1.length ≤ q.length := by
        intro e he
        rcases List.mem_append.1 he with he | he
        · exact h2 e he
        · rw [List.mem_singleton] at he
          subst he
          exact hmin_new
      have h3' : List.Pairwise (fun a b => a.2.1.length ≤ b.2.1.length)
          (queue ++ [(nb, P ++ [nb], D + w)]) := by
        rw [List.pairwise_append]
        refine ⟨h3, List.pairwise_singleton _ _, ?_⟩
        intro a ha b hb
        rw [List.mem_singleton] at hb
        subst hb
        have := (h4 a ha).2
        simp only [List.length_append, List.length_singleton]
        omega
      have h4' : ∀ e ∈ queue ++ [(nb, P ++ [nb], D + w)],
          P.length ≤ e.2.1.length ∧ e.2.1.length ≤ P.length + 1 := by
        intro e he
        rcases List.mem_append.1 he with he | he
        · exact h4 e he
        · rw [List.mem_singleton] at he
          subst he
          simp only [List.length_append, List.length_singleton]
          omega
      have h5' : ∀ u ∈ nb :: visited, u ≠ c →
          (∀ e ∈ queue ++ [(nb, P ++ [nb], D + w)], e.1 ≠ u) →
          ∀ w', stepRel g u w' → w' ∈ nb :: visited := by
        intro u hu huc hqe w' hs
        rcases List.mem_cons.1 hu with rfl | hu'
        · exact absurd rfl (hqe (u, P ++ [u], D + w)
            (List.mem_append.2 (Or.inr (List.mem_singleton.2 rfl))))
        · exact List.mem_cons_of_mem _ (h5 u hu' huc
            (fun e he => hqe e (List.mem_append.2 (Or.inl he))) w' hs)
      have h6' : t ∈ nb :: visited → ∃ e ∈ queue ++ [(nb, P ++ [nb], D + w)], e.1 = t := by
        intro ht
        rcases List.mem_cons.1 ht with rfl | ht'
        · exact ⟨(t, P ++ [t], D + w),
            List.mem_append.2 (Or.inr (List.mem_singleton.2 rfl)), rfl⟩
        · obtain ⟨e, he, het⟩ := h6 ht'
          exact ⟨e, List.mem_append.2 (Or.inl he), het⟩
      obtain ⟨c1, c2, c3, c4, c5, c6, c7, c8, c9⟩ :=
        ih (pre ++ [(nb, w)]) (queue ++ [(nb, P ++ [nb], D + w)]) (nb :: visited) q' v'
          heq hsplit' hpre' (fun x hx => List.mem_cons_of_mem _ (hP x hx))
          (List.mem_cons_of_mem _ hf) h1' h2' h3' h4' h5' h6'
      refine ⟨c1, c2, c3, c4, fun x hx => c5 x (List.mem_cons_of_mem _ hx), ?_, c7, c8, ?_⟩
      · intro x hx
        rcases List.mem_cons.1 hx with rfl | hx'
        · exact c5 nb (List.mem_cons_self _ _)
        · exact c6 x hx'
      · have hcnt : bfsCount g f (nb :: visited) < bfsCount g f visited :=
          bfsCount_lt_of_cons (mem_bfsUniv_of_pair hmempair) hnb
        simp only [List.length_append, List.length_singleton] at c9
        omega

lemma stepRel_mem_outPairs {g : Graph} {c w : String} (h : stepRel g c w) :
    ∃ ω, (w, ω) ∈ outPairs g c := by
  obtain ⟨e, he, hf, ht⟩ := h
  exact ⟨edgeWeight e, mem_outPairs.2 ⟨e, he, hf, ht, rfl⟩⟩

lemma bfs_stuck_absurd {g : Graph} {f t : String} {visited : List String}
    (hreach : Reachable g f t) (hf : f ∈ visited)
    (hclosed : ∀ u ∈ visited, ∀ w, stepRel g u w → w ∈ visited)
    (ht : t ∉ visited) : False := by
  obtain ⟨p, hp⟩ := hreach
  obtain ⟨q, u, w, hq, hs, hu, hw, -⟩ := walk_exit p f t hp hf ht
  exact hw (hclosed u hu w hs)

lemma bfsLoop_correct (g : Graph) (f t : String) (hreach : Reachable g f t) :
    ∀ (fuel : Nat) (queue : List (String × List String × ℚ)) (visited : List String),
      (∀ e ∈ queue, IsWalk g f e.1 e.2.1 ∧ e.2.2 = walkWeight g e.2.1 ∧
        (∀ x ∈ e.2.1, x ∈ visited)) →
      (∀ e ∈ queue, ∀ q, IsWalk g f e.1 q → e.2.1.length ≤ q.length) →
      List.Pairwise (fun a b => a.2.1.length ≤ b.2.1.length) queue →
      (∀ a ∈ queue, ∀ b ∈ queue, b.2.1.length ≤ a.2.1.length + 1) →
      f ∈ visited →
      (∀ u ∈ visited, (∀ e ∈ queue, e.1 ≠ u) → ∀ w, stepRel g u w → w ∈ visited) →
      (t ∈ visited → ∃ e ∈ queue, e.1 = t) →
      queue.length + bfsCount g f visited ≤ fuel →
      ∃ p d, bfsLoop g t fuel queue visited = ⟨p, true, some d⟩ ∧
        IsWalk g f t p ∧ d = walkWeight g p ∧
        (∀ q, IsWalk g f t q → p.length ≤ q.length) := by
  intro fuel
  induction fuel with
  | zero =>
    intro queue visited h1 h2 h3 h4 hf h6 h7 hfuel
    exfalso
    have hq : queue = [] := by
      rcases queue with _ | ⟨e, rest⟩
      · rfl
      · simp at hfuel
    subst hq
    refine bfs_stuck_absurd hreach hf
      (fun u hu w hs => h6 u hu (fun e he => absurd he (List.not_mem_nil e)) w hs) ?_
    intro ht
    obtain ⟨e, he, -⟩ := h7 ht
    exact absurd he (List.not_mem_nil e)
  | succ fuel ih =>
    intro queue visited h1 h2 h3 h4 hf h6 h7 hfuel
    rcases queue with _ | ⟨⟨c, P, D⟩, rest⟩
    · exfalso
      refine bfs_stuck_absurd hreach hf
        (fun u hu w hs => h6 u hu (fun e he => absurd he (List.not_mem_nil e)) w hs) ?_
      intro ht
      obtain ⟨e, he, -⟩ := h7 ht
      exact absurd he (List.not_mem_nil e)
    · obtain ⟨hc_walk, hc_w, hc_vis⟩ := h1 _ (List.mem_cons_self _ _)
      have hc_min := h2 _ (List.mem_cons_self _ _)
      rw [bfsLoop_cons]
      by_cases hct : c = t
      · rw [if_pos (by simpa using hct)]
        subst hct
        exact ⟨P, D, rfl, hc_walk, hc_w, hc_min⟩
      · rw [if_neg (by simpa using hct)]
        rcases hqv : enqueueNbrs (outPairs g c) rest visited P D with ⟨q', v'⟩
        have hpw := List.pairwise_cons.1 h3
        obtain ⟨c1, c2, c3, c4, c5, c6, c7, c8, c9⟩ :=
          enqueueNbrs_spec g f t c P D hc_walk hc_w hc_min (outPairs g c) [] rest visited
            q' v' hqv rfl (fun x hx => absurd hx (List.not_mem_nil x)) hc_vis hf
            (fun e he => h1 e (List.mem_cons_of_mem _ he))
            (fun e he => h2 e (List.mem_cons_of_mem _ he))
            hpw.2
            (fun e he => ⟨hpw.1 e he, h4 _ (List.mem_cons_self _ _) e (List.mem_cons_of_mem _ he)⟩)
            (fun u hu huc hne w hs => h6 u hu (fun e he => by
              rcases List.mem_cons.1 he with rfl | he'
              · exact fun h => huc h.symm
              · exact hne e he') w hs)
            (fun ht => by
              obtain ⟨e, he, het⟩ := h7 ht
              rcases List.mem_cons.1 he with rfl | he'
              · exact absurd het hct
              · exact ⟨e, he', het⟩)
        refine ih q' v' c1 c2 c3 ?_ (c5 f hf) ?_ c8 ?_
        · intro a ha b hb
          have h1a := (c4 a ha).1
          have h2b := (c4 b hb).2
          omega
        · intro u hu hne w hs
          by_cases huc : u = c
          · subst huc
            obtain ⟨ω, hω⟩ := stepRel_mem_outPairs hs
            exact c6 (w, ω) hω
          · exact c7 u hu huc hne w hs
        · simp only [List.length_cons] at hfuel
          omega

lemma bfsCount_nil (g : Graph) (f : String) : bfsCount g f [] = (bfsUniv g f).length := by
  unfold bfsCount
  rw [List.filter_eq_self.2]
  intro a _
  simp

/-- C3: for distinct source and target with the target reachable,
`find_path_between_nodes` reports existence, returns a walk from source to
target with the minimum possible number of hops, and reports as distance the
sum over the walk's steps of the weight of the (first) edge used for each
step, a missing weight defaulting to 1. -/
theorem c3_reachable_hop_shortest (g : Graph) (f t : String) (hne : f ≠ t)
    (hreach : Reachable g f t) :
    (find_path_between_nodes g f t).«exists» = true ∧
    IsWalk g f t (find_path_between_nodes g f t).path ∧
    (∀ p, IsWalk g f t p → (find_path_between_nodes g f t).path.length ≤ p.length) ∧
    (find_path_between_nodes g f t).distance
      = some (walkWeight g (find_path_between_nodes g f t).path) := by
  obtain ⟨p, d, hrun, hw, hd, hmin⟩ := bfsLoop_correct g f t hreach (bfsUniv g f).length
    [(f, [f], 0)] [f]
    (by
      intro e he
      rw [List.mem_singleton] at he
      subst he
      exact ⟨isWalk_singleton g f, rfl, fun x hx => hx⟩)
    (by
      intro e he q hq
      rw [List.mem_singleton] at he
      subst he
      show 1 ≤ q.length
      have := isWalk_ne_nil hq
      exact List.length_pos.2 this)
    (List.pairwise_singleton _ _)
    (by
      intro a ha b hb
      rw [List.mem_singleton] at ha hb
      subst ha
      subst hb
      simp)
    (List.mem_singleton.2 rfl)
    (by
      intro u hu hne' w hs
      rw [List.mem_singleton] at hu
      subst hu
      exact absurd rfl (hne' (u, [u], 0) (List.mem_singleton.2 rfl)))
    (by
      intro ht
      rw [List.mem_singleton] at ht
      exact absurd ht.symm hne)
    (by
      have h1 : bfsCount g f [f] < bfsCount g f [] :=
        bfsCount_lt_of_cons (mem_bfsUniv_self g f) (List.not_mem_nil f)
      rw [bfsCount_nil] at h1
      simp only [List.length_singleton]
      omega)
  unfold find_path_between_nodes
  rw [if_neg (by simpa using hne), hrun]
  exact ⟨rfl, hw, hmin, by rw [hd]⟩

theorem c3_witness :
    ("A" : String) ≠ "C" ∧
    Reachable ⟨["A", "B", "C"], [⟨"A", "B", some 1⟩, ⟨"B", "C", some 1⟩]⟩ "A" "C" ∧
    ((find_path_between_nodes ⟨["A", "B", "C"], [⟨"A", "B", some 1⟩, ⟨"B", "C", some 1⟩]⟩
        "A" "C").«exists» = true ∧
      IsWalk ⟨["A", "B", "C"], [⟨"A", "B", some 1⟩, ⟨"B", "C", some 1⟩]⟩ "A" "C"
        (find_path_between_nodes ⟨["A", "B", "C"], [⟨"A", "B", some 1⟩, ⟨"B", "C", some 1⟩]⟩
          "A" "C").path ∧
      (∀ p, IsWalk ⟨["A", "B", "C"], [⟨"A", "B", some 1⟩, ⟨"B", "C", some 1⟩]⟩ "A" "C" p →
        (find_path_between_nodes ⟨["A", "B", "C"], [⟨"A", "B", some 1⟩, ⟨"B", "C", some 1⟩]⟩
          "A" "C").path.length ≤ p.length) ∧
      (find_path_between_nodes ⟨["A", "B", "C"], [⟨"A", "B", some 1⟩, ⟨"B", "C", some 1⟩]⟩
        "A" "C").distance
        = some (walkWeight ⟨["A", "B", "C"], [⟨"A", "B", some 1⟩, ⟨"B", "C", some 1⟩]⟩
            (find_path_between_nodes
              ⟨["A", "B", "C"], [⟨"A", "B", some 1⟩, ⟨"B", "C", some 1⟩]⟩ "A" "C").path)) := by
  have hreach : Reachable ⟨["A", "B", "C"], [⟨"A", "B", some 1⟩, ⟨"B", "C", some 1⟩]⟩
      "A" "C" := by
    refine ⟨["A", "B", "C"], rfl, rfl, ?_⟩
    rw [List.chain'_cons]
    refine ⟨by decide, ?_⟩
    rw [List.chain'_cons]
    exact ⟨by decide, List.chain'_singleton _⟩
  exact ⟨by decide, hreach,
    c3_reachable_hop_shortest ⟨["A", "B", "C"], [⟨"A", "B", some 1⟩, ⟨"B", "C", some 1⟩]⟩
      "A" "C" (by decide) hreach⟩

end GraphAlgo
